import Mathlib

/-!
Verification of the peer-to-peer server of the dcrd daemon (`server.go`).

The definitions below are a shallow embedding of the Go source.  External
collaborators (block chain, mempool, address manager, framed peer codec,
connection manager) appear as oracle parameters: functions supplied to the
embedded code, exactly at the points where the Go code calls out to them.
Machine integers are modelled as `Nat`/`Int`; the only place where the bit
width matters (the 16-bit rejection sampler and the 64-bit service masks)
carries the width explicitly.
-/

namespace Dcrd

/-! ## Association-list helpers

Go maps are embedded as association lists.  `alistInsert` mirrors `m[k] = v`
(replace or add), `alistErase` mirrors `delete(m, k)`, `alistLookup` mirrors
`v, ok := m[k]`.  Iteration-order caveats are noted at each use site.
-/

def alistLookup {α β : Type} [DecidableEq α] : List (α × β) → α → Option β
  | [], _ => none
  | e :: rest, k => if e.1 = k then some e.2 else alistLookup rest k

def alistErase {α β : Type} [DecidableEq α] (l : List (α × β)) (k : α) : List (α × β) :=
  l.filter (fun e => ¬ (e.1 = k))

def alistInsert {α β : Type} [DecidableEq α] (l : List (α × β)) (k : α) (v : β) :
    List (α × β) :=
  alistErase l k ++ [(k, v)]

def alistHasKey {α β : Type} [DecidableEq α] (l : List (α × β)) (k : α) : Bool :=
  (alistLookup l k).isSome

/-! ## Rebroadcast jitter (`randomUint16Number`, source lines 1167-1180)

`rand.Reader` is embedded as the list of successive 16-bit samples the Go
code would read with `binary.Read`.  The Go loop runs until a sample is
accepted; the embedding returns `none` when the (finite) sample list is
exhausted first, which corresponds to cutting the Go loop after
`samples.length` iterations.
-/

/-- Embeds `math.MaxUint16` from the Go standard library. -/
def maxUint16 : Nat := 65535

/-- Embeds `randomUint16Number(max)`: rejection sampling of a uint16 against
`limitRange = (math.MaxUint16 / max) * max`, returning the first accepted
sample reduced `% max`. -/
def randomUint16Number (max : Nat) (samples : List Nat) : Option Nat :=
  match samples with
  | [] => none
  | r :: rest =>
      if r < (maxUint16 / max) * max then some (r % max)
      else randomUint16Number max rest

/-- Embeds the timer-reset expression of `rebroadcastHandler` (source lines
2215-2218): `timer.Reset(time.Second * time.Duration(randomUint16Number(1800)))`,
i.e. the new timer interval, in whole seconds. -/
def rebroadcastTimerReset (samples : List Nat) : Option Nat :=
  randomUint16Number 1800 samples

/-! ## Rebroadcast pruning (`rebroadcastHandler`, `broadcastPruneInventory`
case, source lines 2153-2204) -/

/-- Result of `stake.DetermineTxType` (external stake package), restricted to
the constructors the prune logic inspects. -/
inductive StakeTxType where
  | regular
  | sstx
  | ssgen
  | ssrtx
  deriving DecidableEq, Repr

/-- The fields of a `dcrutil.Tx` that the prune loop reads: its stake type,
the value of output 0, and the hash of the first input's previous outpoint. -/
structure RTx where
  txType : StakeTxType
  out0Value : Int
  firstInPrevOutHash : Nat
  deriving DecidableEq, Repr

/-- The `interface{}` data stored in `pendingInvs`: either a `*dcrutil.Tx`
(the type assertion succeeds) or anything else. -/
inductive RData where
  | tx (t : RTx)
  | other
  deriving DecidableEq, Repr

/-- Inventory vector key of the `pendingInvs` map. -/
structure InvVectKey where
  invType : Nat
  hash : Nat
  deriving DecidableEq, Repr

/-- The chain oracles consulted by the prune case:
`CalcNextRequiredStakeDifficulty` (with its error modelled as `none`),
`CheckLiveTicket`, and `blockchain.IsExpired tx best.Height` precomputed per
transaction. -/
structure PruneChain where
  nextStakeDiff : Option Int
  checkLiveTicket : Nat → Bool
  isExpired : RTx → Bool

/-- Embeds the `broadcastPruneInventory` case of `rebroadcastHandler`: on a
stake-difficulty error the prune is skipped; otherwise each pending entry is
kept or deleted by the three checks of the Go loop (ticket value mismatch,
ticket expiry, revocation whose referenced ticket fails `CheckLiveTicket`). -/
def rebroadcastPrune (chain : PruneChain) (pendingInvs : List (InvVectKey × RData)) :
    List (InvVectKey × RData) :=
  match chain.nextStakeDiff with
  | none => pendingInvs
  | some nextStakeDiff =>
      pendingInvs.filter (fun entry =>
        match entry.2 with
        | RData.other => true
        | RData.tx tx =>
            if tx.txType = StakeTxType.sstx ∧ ¬ (tx.out0Value = nextStakeDiff) then
              false
            else if tx.txType = StakeTxType.sstx ∧ chain.isExpired tx then
              false
            else if tx.txType = StakeTxType.ssrtx ∧
                ¬ chain.checkLiveTicket tx.firstInPrevOutHash then
              false
            else
              true)

/-! ## Misbehavior scoring (`addBanScore`, source lines 386-418) -/

/-- Modelled from the spec: `connmgr.DynamicBanScore` is an external package.
Per spec section 4.1 it holds a persistent counter, a transient counter that
decays exponentially (half-life 60 s), and the time of the last update.  The
decay computation itself is abstracted as an oracle
`decay : transient → elapsed → decayed transient` supplied to the operations. -/
structure DynamicBanScore where
  persistentScore : Nat
  transientScore : Nat
  lastUnix : Nat
  deriving DecidableEq, Repr

/-- Modelled from the spec: `DynamicBanScore.Increase(p, t)` at time `now`
adds `p` to the persistent counter, recomputes the decayed transient and adds
`t`, stamps `lastUnix = now`, and returns the new combined total. -/
def DynamicBanScore.increaseAt (bs : DynamicBanScore) (decay : Nat → Nat → Nat)
    (now p t : Nat) : DynamicBanScore × Nat :=
  let decayed := decay bs.transientScore (now - bs.lastUnix)
  let bs' : DynamicBanScore :=
    { persistentScore := bs.persistentScore + p
      transientScore := decayed + t
      lastUnix := now }
  (bs', bs'.persistentScore + bs'.transientScore)

/-- Modelled from the spec: `DynamicBanScore.Int()` returns the decayed
combined total at `now` without mutating the counters. -/
def DynamicBanScore.intAt (bs : DynamicBanScore) (decay : Nat → Nat → Nat)
    (now : Nat) : Nat :=
  bs.persistentScore + decay bs.transientScore (now - bs.lastUnix)

/-- The configuration fields `addBanScore` reads. -/
structure BanCfg where
  disableBanning : Bool
  banThreshold : Nat
  deriving DecidableEq, Repr

/-- Observable outcome of one `addBanScore` call: the ban-score state
afterwards, whether a warning was logged, and whether `server.BanPeer` and
`Peer.Disconnect` were invoked. -/
structure AddBanScoreResult where
  banScore : DynamicBanScore
  warned : Bool
  banPeer : Bool
  disconnected : Bool
  deriving DecidableEq, Repr

/-- Embeds `serverPeer.addBanScore(persistent, transient, reason)`: no-op when
banning is disabled or the peer is whitelisted; a pure read (with possible
warning) when both increments are zero; otherwise an `Increase` followed by
the warn- and ban-threshold checks (`warnThreshold = cfg.BanThreshold >> 1`). -/
def addBanScore (cfg : BanCfg) (decay : Nat → Nat → Nat) (now : Nat)
    (isWhitelisted : Bool) (bs : DynamicBanScore) (persistent transient : Nat) :
    AddBanScoreResult :=
  if cfg.disableBanning then
    { banScore := bs, warned := false, banPeer := false, disconnected := false }
  else if isWhitelisted then
    { banScore := bs, warned := false, banPeer := false, disconnected := false }
  else
    let warnThreshold := cfg.banThreshold / 2
    if transient = 0 ∧ persistent = 0 then
      { banScore := bs
        warned := decide (warnThreshold < bs.intAt decay now)
        banPeer := false
        disconnected := false }
    else
      let r := bs.increaseAt decay now persistent transient
      if warnThreshold < r.2 then
        if cfg.banThreshold < r.2 then
          { banScore := r.1, warned := true, banPeer := true, disconnected := true }
        else
          { banScore := r.1, warned := true, banPeer := false, disconnected := false }
      else
        { banScore := r.1, warned := false, banPeer := false, disconnected := false }

/-! ## Version negotiation (`OnVersion`, source lines 429-513) -/

/-- Embeds `wire.SFNodeNetwork` (bit 0 of the 64-bit service mask). -/
def sfNodeNetwork : Nat := 1

/-- Embeds `wire.InitialProcotolVersion` (the minimum accepted protocol
version of the wire package, including the source's spelling). -/
def initialProcotolVersion : Int := 1

/-- Embeds `hasServices(advertised, desired)`:
`advertised & desired == desired` on 64-bit service masks. -/
def hasServices (advertised desired : Nat) : Bool :=
  Nat.land advertised desired = desired

/-- Embeds `wantServices & ^msg.Services` on uint64 masks: the bitwise
complement is taken within 64 bits. -/
def missingServices (wantServices services : Nat) : Nat :=
  Nat.land wantServices (Nat.xor services (2 ^ 64 - 1))

/-- Embeds Go's `fmt.Sprintf("%#x", n)` for a uint64 value: `0x` followed by
the lowercase hexadecimal digits. -/
def goHex (n : Nat) : String :=
  "0x" ++ (Nat.toDigits 16 n).asString

/-- The reject codes of the wire package used by `OnVersion`. -/
inductive RejectCode where
  | nonstandard
  deriving DecidableEq, Repr

/-- Embeds `wire.MsgReject` as built by `wire.NewMsgReject`. -/
structure MsgReject where
  cmd : String
  code : RejectCode
  reason : String
  deriving DecidableEq, Repr

/-- The fields of `wire.MsgVersion` that `OnVersion` reads. -/
structure VersionMsg where
  protocolVersion : Int
  services : Nat
  disableRelayTx : Bool
  deriving DecidableEq, Repr

/-- Externally observable side effects of `OnVersion`, in program order:
calls into the address manager (`SetServices`, `Good`), the codec
(`pushAddrMsg`, `QueueMessage(getaddr)`), the per-peer fields, the time
source, the block manager, and the server (`AddPeer`). -/
inductive VEvent where
  | setServices (services : Nat)
  | pushAddr
  | queueGetAddr
  | good
  | setPeerNa
  | setDisableRelayTx (disable : Bool)
  | addTimeSample
  | newSyncCandidate
  | addPeer
  deriving DecidableEq, Repr

/-- The configuration flags and external oracles `OnVersion` consults:
`cfg.SimNet`, `cfg.DisableListen`, `sp.Inbound()`,
`blockManager.IsCurrent()`, whether `GetBestLocalAddress` returns a routable
address, and `addrManager.NeedMoreAddresses()`. -/
structure VersionEnv where
  simNet : Bool
  disableListen : Bool
  isInbound : Bool
  isCurrent : Bool
  bestLocalRoutable : Bool
  needMoreAddresses : Bool
  deriving DecidableEq, Repr

/-- Embeds `serverPeer.OnVersion`: the unconditional `SetServices` update for
non-simnet outbound peers, the minimum-protocol-version gate (silent `nil`
return), the full-node service gate for outbound peers (structured reject
with the `%#x` missing-services mask), and on success the address
advertisement, `getaddr` request, `Good` mark, per-peer field updates, time
sample, block-manager notification, and `AddPeer` hand-off. -/
def onVersion (env : VersionEnv) (msg : VersionMsg) :
    Option MsgReject × List VEvent :=
  let evs : List VEvent :=
    if ¬ env.simNet ∧ ¬ env.isInbound then [VEvent.setServices msg.services] else []
  if msg.protocolVersion < initialProcotolVersion then
    (none, evs)
  else
    let wantServices := sfNodeNetwork
    if ¬ env.isInbound ∧ ¬ hasServices msg.services wantServices then
      let missing := missingServices wantServices msg.services
      (some { cmd := "version"
              code := RejectCode.nonstandard
              reason := "required services " ++ goHex missing ++ " not offered" },
       evs)
    else
      let evs := evs ++
        (if ¬ env.simNet ∧ ¬ env.isInbound then
          (if ¬ env.disableListen ∧ env.isCurrent ∧ env.bestLocalRoutable then
            [VEvent.pushAddr] else []) ++
          (if env.needMoreAddresses then [VEvent.queueGetAddr] else []) ++
          [VEvent.good]
        else [])
      let evs := evs ++ (if ¬ env.isInbound then [VEvent.setPeerNa] else [])
      let evs := evs ++ [VEvent.setDisableRelayTx msg.disableRelayTx,
        VEvent.addTimeSample, VEvent.newSyncCandidate, VEvent.addPeer]
      (none, evs)

/-! ## The getdata pipeline (`OnGetData` lines 753-826, `pushTxMsg` lines
1246-1272, `pushBlockMsg` lines 1276-1317)

Channels are identified by allocation order: channel `0` is `doneChan`
(allocated once per `OnGetData` call); every `make(chan struct)` after it
gets the next free identifier.  The trace records, in program order, channel
sends (`doneChan <- struct{}{}` on a fetch failure), channel receives, waits
on a `waitChan` pre-condition, and codec enqueues with their optional
completion channel.
-/

/-- Inventory types of a getdata request: `wire.InvTypeTx`,
`wire.InvTypeBlock`, or anything else (the `default` branch of the switch). -/
inductive GDInvType where
  | tx
  | block
  | unknown
  deriving DecidableEq, Repr

/-- One entry of `msg.InvList`. -/
structure GDInv where
  invType : GDInvType
  hash : Nat
  deriving DecidableEq, Repr

/-- Message payloads enqueued to the codec by the getdata path. -/
inductive GDPayload where
  | txMsg (hash : Nat)
  | blockMsg (hash : Nat)
  | invMsg (hash : Nat)
  | notFoundMsg (misses : List GDInv)
  deriving DecidableEq, Repr

/-- Trace events of the getdata path. -/
inductive GDEvent where
  | banScore (persistent transient : Nat)
  | chanSend (c : Nat)
  | chanRecv (c : Nat)
  | waitOn (c : Nat)
  | queueMsg (payload : GDPayload) (doneChan : Option Nat)
  deriving DecidableEq, Repr

/-- The mempool and chain oracles of the getdata path: whether
`txMemPool.FetchTransaction` and `chain.BlockByHash` succeed for a hash, and
the best-snapshot hash used by the continue-inventory reply. -/
structure GDEnv where
  mempoolHasTx : Nat → Bool
  chainHasBlock : Nat → Bool
  bestHash : Nat

/-- Embeds `server.pushTxMsg(sp, hash, doneChan, waitChan)`: on a mempool
miss, one signal on `doneChan` (when non-nil) and an error; on a hit, wait on
`waitChan` (when non-nil) then enqueue the transaction with `doneChan`.
Returns whether an error was returned, plus the trace. -/
def pushTxMsg (env : GDEnv) (hash : Nat) (doneChan waitChan : Option Nat) :
    Bool × List GDEvent :=
  if env.mempoolHasTx hash then
    let waitEvs := match waitChan with
      | some w => [GDEvent.waitOn w]
      | none => []
    (false, waitEvs ++ [GDEvent.queueMsg (GDPayload.txMsg hash) doneChan])
  else
    match doneChan with
    | some c => (true, [GDEvent.chanSend c])
    | none => (true, [])

/-- Embeds `server.pushBlockMsg(sp, hash, doneChan, waitChan)`: on a chain
miss, one signal on `doneChan` (when non-nil) and an error; on a hit, wait on
`waitChan`, then enqueue the block — without a completion channel when this
block is the remembered `continueHash`, in which case a fresh inventory of
the best tip is enqueued with `doneChan` and the continue hash is cleared.
Returns whether an error was returned, the new `continueHash`, and the
trace. -/
def pushBlockMsg (env : GDEnv) (continueHash : Option Nat) (hash : Nat)
    (doneChan waitChan : Option Nat) : Bool × Option Nat × List GDEvent :=
  if env.chainHasBlock hash then
    let waitEvs := match waitChan with
      | some w => [GDEvent.waitOn w]
      | none => []
    let sendInv := continueHash = some hash
    if sendInv then
      (false, none,
        waitEvs ++ [GDEvent.queueMsg (GDPayload.blockMsg hash) none,
          GDEvent.queueMsg (GDPayload.invMsg env.bestHash) doneChan])
    else
      (false, continueHash,
        waitEvs ++ [GDEvent.queueMsg (GDPayload.blockMsg hash) doneChan])
  else
    match doneChan with
    | some c => (true, continueHash, [GDEvent.chanSend c])
    | none => (true, continueHash, [])

/-- Loop state of `OnGetData`: the index of the item being processed, the
`notFound` accumulator, `numAdded`, the current `waitChan`, the next free
channel identifier, the peer's `continueHash`, the trace so far, and the
completion channel chosen for each item so far. -/
structure GDState where
  idx : Nat
  notFound : List GDInv
  numAdded : Nat
  waitChan : Option Nat
  nextChan : Nat
  continueHash : Option Nat
  events : List GDEvent
  assigns : List (Option Nat)
  deriving DecidableEq, Repr

/-- The completion-channel choice of the `OnGetData` loop (source lines
780-787): the done channel (identifier 0) for the final item while `notFound`
is still empty, else a fresh buffered channel (the next free identifier) for
every third item, else none. -/
def assignOf (total idx : Nat) (notFound : List GDInv) (nextChan : Nat) :
    Option Nat :=
  if idx = total - 1 ∧ notFound = [] then some 0
  else if (idx + 1) % 3 = 0 then some nextChan
  else none

/-- The shared tail of one `OnGetData` iteration after the type switch
(source lines 799-812): on a fetch failure append the item to `notFound` and,
when it was the final item and a channel was chosen for it, consume that
channel; then advance `numAdded` and let `waitChan` take the item's
channel. -/
def gdFinishItem (total i : Nat) (c : Option Nat) (iv : GDInv) (err : Bool)
    (st' : GDState) : GDState :=
  let st' :=
    if err then
      let st' := { st' with notFound := st'.notFound ++ [iv] }
      match c with
      | some ch =>
          if i = total - 1 then
            { st' with events := st'.events ++ [GDEvent.chanRecv ch] }
          else st'
      | none => st'
    else st'
  { st' with numAdded := st'.numAdded + 1, waitChan := c }

/-- One iteration of the `OnGetData` loop over `msg.InvList` (`total` is
`len(msg.InvList)`): choose the completion channel via `assignOf`, fetch and
enqueue via `pushTxMsg`/`pushBlockMsg` (unknown types are skipped by
`continue`, leaving `numAdded` and `waitChan` untouched), then run the shared
error-handling tail `gdFinishItem`. -/
def gdStep (env : GDEnv) (total : Nat) (st : GDState) (iv : GDInv) : GDState :=
  let i := st.idx
  let cFresh : Bool := ¬ (i = total - 1 ∧ st.notFound = []) ∧ (i + 1) % 3 = 0
  let c : Option Nat := assignOf total i st.notFound st.nextChan
  let st' := { st with
    idx := i + 1
    nextChan := if cFresh then st.nextChan + 1 else st.nextChan
    assigns := st.assigns ++ [c] }
  match iv.invType with
  | GDInvType.unknown => st'
  | GDInvType.tx =>
      let r := pushTxMsg env iv.hash c st.waitChan
      gdFinishItem total i c iv r.1 { st' with events := st'.events ++ r.2 }
  | GDInvType.block =>
      let r := pushBlockMsg env st.continueHash iv.hash c st.waitChan
      gdFinishItem total i c iv r.1
        { st' with events := st'.events ++ r.2.2, continueHash := r.2.1 }

/-- Whether the fetch of an item fails: a transaction absent from the
mempool or a block absent from the chain (unknown types are never fetched). -/
def isMiss (env : GDEnv) (iv : GDInv) : Bool :=
  match iv.invType with
  | GDInvType.tx => ! env.mempoolHasTx iv.hash
  | GDInvType.block => ! env.chainHasBlock iv.hash
  | GDInvType.unknown => false

/-- Whether an item's type is handled by the switch (everything except the
`default: continue` arm). -/
def isKnownType (iv : GDInv) : Bool :=
  match iv.invType with
  | GDInvType.unknown => false
  | _ => true

/-- Embeds `wire.MaxInvPerMsg`. -/
def maxInvPerMsg : Nat := 50000

/-- The post-loop tail of `OnGetData` (source lines 814-825): a non-empty
`notFound` reply is enqueued with `doneChan`, and when at least one item was
handled the callback blocks on a final receive from `doneChan`. -/
def gdPost (st : GDState) : GDState :=
  let st :=
    if st.notFound = [] then st
    else { st with events :=
      st.events ++ [GDEvent.queueMsg (GDPayload.notFoundMsg st.notFound) (some 0)] }
  if 0 < st.numAdded then
    { st with events := st.events ++ [GDEvent.chanRecv 0] }
  else st

/-- Embeds `serverPeer.OnGetData`: empty requests are ignored; otherwise the
ban score is bumped by `(0, len·99/maxInvPerMsg)`, the request list is
streamed through `gdStep`, and the post-loop tail `gdPost` runs. -/
def onGetData (env : GDEnv) (continueHash : Option Nat) (invList : List GDInv) :
    GDState :=
  if invList = [] then
    { idx := 0, notFound := [], numAdded := 0, waitChan := none, nextChan := 1
      continueHash := continueHash, events := [], assigns := [] }
  else
    let st0 : GDState :=
      { idx := 0, notFound := [], numAdded := 0, waitChan := none, nextChan := 1
        continueHash := continueHash
        events := [GDEvent.banScore 0 (invList.length * 99 / maxInvPerMsg)]
        assigns := [] }
    gdPost (invList.foldl (gdStep env invList.length) st0)

/-- The invariant of the `OnGetData` loop after processing the prefix `pre`
of a request of `n` items: the index, `notFound` accumulator, `numAdded`
counter and per-item channel choices are determined by the prefix — the done
channel goes exactly to a final item seen while no miss had accumulated, a
fresh nonzero channel to every other third item, none elsewhere, fresh
identifiers stay below the allocator and grow strictly, and the trace only
ever grows. -/
structure GDLoopInv (env : GDEnv) (n : Nat) (pre : List GDInv) (st : GDState) :
    Prop where
  idx : st.idx = pre.length
  notFound : st.notFound = pre.filter (isMiss env)
  numAdded : st.numAdded = (pre.filter isKnownType).length
  alen : st.assigns.length = pre.length
  nextPos : 1 ≤ st.nextChan
  bound : ∀ (i c : Nat), st.assigns[i]? = some (some c) → c < st.nextChan
  doneIff : ∀ (i : Nat), i < pre.length →
    (st.assigns[i]? = some (some 0) ↔
      (i = n - 1 ∧ (pre.take i).filter (isMiss env) = []))
  freshSpec : ∀ (i : Nat), i < pre.length →
    ¬ (i = n - 1 ∧ (pre.take i).filter (isMiss env) = []) →
      (((i + 1) % 3 = 0 → ∃ c, st.assigns[i]? = some (some c) ∧ 1 ≤ c) ∧
        ((i + 1) % 3 ≠ 0 → st.assigns[i]? = some none))
  mono : ∀ (i j : Nat), i < j → ∀ ci cj, st.assigns[i]? = some (some ci) →
    st.assigns[j]? = some (some cj) → 1 ≤ ci → 1 ≤ cj → ci < cj

/-! ## Peer registry state (`peerState` and the event-loop handlers)

The registry maps of `peerState` are embedded as association lists (the Go
maps are unordered; all theorems below are insensitive to entry order).
`addrmgr.GroupKey(sp.NA())` is a pure function of a peer's immutable network
address, so each embedded peer carries its group key directly; the same goes
for the host returned by `net.SplitHostPort(sp.Addr())` (with the error case
as `none`), the loopback test of its IP, and the validity verdict of
`addrMgr.IsPeerNaValid` on its version-reported address.
-/

/-- Address family of a peer-reported address: `na.IP.To4() != nil` picks
IPv4, else `na.IP.To16() != nil` picks IPv6, else neither. -/
inductive NetFamily where
  | v4
  | v6
  deriving DecidableEq, Repr

/-- The immutable per-peer data the event-loop handlers read. -/
structure Peer where
  pid : Nat
  inbound : Bool
  persistent : Bool
  versionKnown : Bool
  whitelisted : Bool
  host : Option String
  ip : Nat
  loopback : Bool
  group : String
  peerNa : Option String
  naValid : Bool
  family : Option NetFamily
  deriving DecidableEq, Repr

/-- The address-manager operations used by local-address discovery: the set
of registered local addresses and the `HostToNetAddress` conversion oracle
(`none` embeds its error return). -/
structure AddrMgr where
  localAddrs : List Nat
  hostToNetAddr : String → Option Nat

/-- Embeds `peerState`: the three registry maps, the banned-host map, the
outbound group counters (a total function, with absent keys reading as zero
exactly as Go map indexing does), and the per-family suggestion tallies. -/
structure PeerState where
  inboundPeers : List (Nat × Peer)
  outboundPeers : List (Nat × Peer)
  persistentPeers : List (Nat × Peer)
  banned : List (String × Nat)
  outboundGroups : String → Int
  suggestionsV4 : List (String × Int)
  suggestionsV6 : List (String × Int)

/-- Embeds `peerState.Count()`. -/
def psCount (st : PeerState) : Nat :=
  st.inboundPeers.length + st.outboundPeers.length + st.persistentPeers.length

/-- Embeds `peerState.ConnectionsWithIP(ip)`. -/
def connectionsWithIP (st : PeerState) (ip : Nat) : Nat :=
  (st.inboundPeers.filter (fun e => e.2.ip = ip)).length +
    (st.outboundPeers.filter (fun e => e.2.ip = ip)).length +
    (st.persistentPeers.filter (fun e => e.2.ip = ip)).length

/-- Adds `delta` to one outbound-group counter, as Go's `m[key]++`/`m[key]--`
does on the `outboundGroups` map. -/
def bumpGroup (f : String → Int) (g : String) (delta : Int) : String → Int :=
  fun g' => if g' = g then f g' + delta else f g'

/-- The configuration fields the event-loop handlers read.
`discoveryDisabled` is the disjunction of the conditions of source lines
1429-1433 (proxy or onion proxy set, `--nodiscoverip`, explicit external IPs,
listening disabled, UPnP, simnet or regnet); `defaultPortOk` is whether
`strconv.ParseUint(activeNetParams.DefaultPort, 10, 16)` succeeds. -/
structure ServerCfg where
  shutdown : Bool
  maxPeers : Nat
  maxSameIP : Nat
  banDuration : Nat
  discoveryDisabled : Bool
  defaultPortOk : Bool

/-- Bumps a suggestion tally, as `state.suggestions[family][id]++` does. -/
def incTally (l : List (String × Int)) (host : String) : List (String × Int) :=
  match alistLookup l host with
  | some t => alistInsert l host (t + 1)
  | none => l ++ [(host, 1)]

/-- Embeds the best-suggestion scan of `ResolveLocalAddress` (source lines
197-205): starting from an empty best, an entry replaces the best when the
best is still empty or its tally is strictly larger.  The Go `range` order
over the map is arbitrary; the scan is applied to the association list's
order, and every theorem that depends on the result is insensitive to that
order. -/
def resolveBest (l : List (String × Int)) : String × Int :=
  l.foldl (fun best e => if best.1 = "" ∨ best.2 < e.2 then e else best) ("", 0)

/-- Embeds `peerState.ResolveLocalAddress` (source lines 189-224): nothing to
do on an empty tally map; otherwise the best suggestion is dropped when its
tally is below two, converted via `HostToNetAddress` (errors drop it), and
registered as a local address at manual priority unless already known. -/
def resolveLocalAddress (suggestions : List (String × Int)) (am : AddrMgr) :
    AddrMgr :=
  if suggestions.length = 0 then am
  else
    let best := resolveBest suggestions
    if best.2 < 2 then am
    else
      match am.hostToNetAddr best.1 with
      | none => am
      | some na =>
          if na ∈ am.localAddrs then am
          else { am with localAddrs := na :: am.localAddrs }

/-- Embeds the local-address-discovery tail of `handleAddPeerMsg` (source
lines 1415-1475), reached after an outbound peer was registered: unless a
disabling condition holds, the peer-reported address is validated,
classified by family, tallied, and the per-family resolver is run. -/
def discoverLocalAddress (cfg : ServerCfg) (st : PeerState) (am : AddrMgr)
    (sp : Peer) : PeerState × AddrMgr :=
  if cfg.discoveryDisabled then (st, am)
  else
    match sp.peerNa with
    | none => (st, am)
    | some naHost =>
        if ¬ sp.naValid then (st, am)
        else if ¬ cfg.defaultPortOk then (st, am)
        else
          match sp.family with
          | some NetFamily.v4 =>
              let st := { st with suggestionsV4 := incTally st.suggestionsV4 naHost }
              (st, resolveLocalAddress st.suggestionsV4 am)
          | some NetFamily.v6 =>
              let st := { st with suggestionsV6 := incTally st.suggestionsV6 naHost }
              (st, resolveLocalAddress st.suggestionsV6 am)
          | none => (st, am)

/-- Outcome of `handleAddPeerMsg`: the peer state and address manager
afterwards, the boolean return value, and whether `sp.Disconnect()` was
called. -/
structure AddPeerResult where
  state : PeerState
  amgr : AddrMgr
  added : Bool
  disconnected : Bool

/-- Embeds `handleAddPeerMsg` from the banned-host check onward (source lines
1380-1478): the same-IP limit, the max-peers limit, insertion into the map
owning the peer (bumping the outbound-group counter for outbound peers), and
the local-address-discovery tail that tallies the peer-reported address and
runs the per-family resolver. -/
def handleAddPeerAdmit (cfg : ServerCfg) (st : PeerState) (am : AddrMgr)
    (sp : Peer) : AddPeerResult :=
  let isInboundWhitelisted := sp.whitelisted ∧ sp.inbound
  if 0 < cfg.maxSameIP ∧ ¬ isInboundWhitelisted ∧ ¬ sp.loopback ∧
      cfg.maxSameIP < connectionsWithIP st sp.ip + 1 then
    { state := st, amgr := am, added := false, disconnected := true }
  else if cfg.maxPeers < psCount st + 1 ∧ ¬ isInboundWhitelisted then
    { state := st, amgr := am, added := false, disconnected := true }
  else if sp.inbound then
    { state := { st with inboundPeers := alistInsert st.inboundPeers sp.pid sp }
      amgr := am, added := true, disconnected := false }
  else
    let st := { st with outboundGroups := bumpGroup st.outboundGroups sp.group 1 }
    let st :=
      if sp.persistent then
        { st with persistentPeers := alistInsert st.persistentPeers sp.pid sp }
      else
        { st with outboundPeers := alistInsert st.outboundPeers sp.pid sp }
    let r := discoverLocalAddress cfg st am sp
    { state := r.1, amgr := r.2, added := true, disconnected := false }

/-- Embeds `handleAddPeerMsg` (source lines 1349-1479): shutdown and
malformed-address drops, the banned-host gate (unexpired entries reject the
peer; expired entries are lazily deleted before admission continues), then
`handleAddPeerAdmit`. -/
def handleAddPeerMsg (cfg : ServerCfg) (now : Nat) (st : PeerState)
    (am : AddrMgr) (sp : Peer) : AddPeerResult :=
  if cfg.shutdown then
    { state := st, amgr := am, added := false, disconnected := true }
  else
    match sp.host with
    | none => { state := st, amgr := am, added := false, disconnected := true }
    | some host =>
        match alistLookup st.banned host with
        | some banEnd =>
            if now < banEnd then
              { state := st, amgr := am, added := false, disconnected := true }
            else
              handleAddPeerAdmit cfg
                { st with banned := alistErase st.banned host } am sp
        | none => handleAddPeerAdmit cfg st am sp

/-- Embeds `handleDonePeerMsg` (source lines 1483-1516): select the map
owning the peer by its persistent and inbound flags; when the peer is
present, decrement its outbound-group counter if it is outbound and has
completed version negotiation, and remove it.  A peer not found in its map
leaves the state untouched. -/
def handleDonePeerMsg (st : PeerState) (sp : Peer) : PeerState :=
  if sp.persistent then
    if alistHasKey st.persistentPeers sp.pid then
      { st with
          outboundGroups :=
            if ¬ sp.inbound ∧ sp.versionKnown then
              bumpGroup st.outboundGroups sp.group (-1)
            else st.outboundGroups,
          persistentPeers := alistErase st.persistentPeers sp.pid }
    else st
  else if sp.inbound then
    if alistHasKey st.inboundPeers sp.pid then
      { st with
          outboundGroups :=
            if ¬ sp.inbound ∧ sp.versionKnown then
              bumpGroup st.outboundGroups sp.group (-1)
            else st.outboundGroups,
          inboundPeers := alistErase st.inboundPeers sp.pid }
    else st
  else
    if alistHasKey st.outboundPeers sp.pid then
      { st with
          outboundGroups :=
            if ¬ sp.inbound ∧ sp.versionKnown then
              bumpGroup st.outboundGroups sp.group (-1)
            else st.outboundGroups,
          outboundPeers := alistErase st.outboundPeers sp.pid }
    else st

/-- Embeds `handleBanPeerMsg` (source lines 1520-1530): a host that fails to
split is ignored; otherwise `banned[host] = now + banDuration`. -/
def handleBanPeerMsg (cfg : ServerCfg) (now : Nat) (st : PeerState) (sp : Peer) :
    PeerState :=
  match sp.host with
  | none => st
  | some host =>
      { st with banned := alistInsert st.banned host (now + cfg.banDuration) }

/-- Embeds `disconnectPeer(peerList, compareFunc, whenFound)` (source lines
1760-1775): remove the first matching peer, returning it and the remaining
list. -/
def disconnectPeerA (l : List (Nat × Peer)) (cmp : Peer → Bool) :
    Option (Nat × Peer) × List (Nat × Peer) :=
  match l with
  | [] => (none, [])
  | e :: rest =>
      if cmp e.2 then (some e, rest)
      else
        let r := disconnectPeerA rest cmp
        (r.1, e :: r.2)

/-- Embeds the `removeNodeMsg` variant of `handleQuery` (source lines
1685-1705): remove a matching persistent peer, decrementing its
outbound-group counter in the `whenFound` callback. -/
def handleRemoveNodeQuery (st : PeerState) (cmp : Peer → Bool) : PeerState :=
  let r := disconnectPeerA st.persistentPeers cmp
  match r.1 with
  | some e =>
      { st with
          persistentPeers := r.2,
          outboundGroups := bumpGroup st.outboundGroups e.2.group (-1) }
  | none => st

/-- Embeds the repeat-until-not-found loop of the `disconnectNodeMsg` variant
over the outbound map (source lines 1731-1744); the fuel argument is
instantiated with the map size, which bounds the number of removals. -/
def disconnectAllOutbound (cmp : Peer → Bool) : Nat → PeerState → PeerState
  | 0, st => st
  | Nat.succ fuel, st =>
      let r := disconnectPeerA st.outboundPeers cmp
      match r.1 with
      | some e =>
          disconnectAllOutbound cmp fuel
            { st with
                outboundPeers := r.2,
                outboundGroups := bumpGroup st.outboundGroups e.2.group (-1) }
      | none => st

/-- Embeds the `disconnectNodeMsg` variant of `handleQuery` (source lines
1721-1749): first a matching inbound peer is removed without touching the
group counters; otherwise matching outbound peers are removed, each
decrementing its group counter, until none match. -/
def handleDisconnectNodeQuery (st : PeerState) (cmp : Peer → Bool) : PeerState :=
  let r := disconnectPeerA st.inboundPeers cmp
  match r.1 with
  | some _ => { st with inboundPeers := r.2 }
  | none => disconnectAllOutbound cmp st.outboundPeers.length st

/-- The event-loop messages that can mutate `peerState`.  The read-only query
variants (connection count, peer lists, group counts, connect requests) never
write the registry maps or counters and are represented by `queryReadOnly`. -/
inductive SEvent where
  | addPeer (now : Nat) (sp : Peer)
  | donePeer (sp : Peer)
  | banPeer (now : Nat) (sp : Peer)
  | queryRemoveNode (cmp : Peer → Bool)
  | queryDisconnectNode (cmp : Peer → Bool)
  | queryReadOnly

/-- One dispatch of the `peerHandler` select loop. -/
def stepEvent (cfg : ServerCfg) (s : PeerState × AddrMgr) :
    SEvent → PeerState × AddrMgr
  | SEvent.addPeer now sp =>
      let r := handleAddPeerMsg cfg now s.1 s.2 sp
      (r.state, r.amgr)
  | SEvent.donePeer sp => (handleDonePeerMsg s.1 sp, s.2)
  | SEvent.banPeer now sp => (handleBanPeerMsg cfg now s.1 sp, s.2)
  | SEvent.queryRemoveNode cmp => (handleRemoveNodeQuery s.1 cmp, s.2)
  | SEvent.queryDisconnectNode cmp => (handleDisconnectNodeQuery s.1 cmp, s.2)
  | SEvent.queryReadOnly => s

/-- The map owning a peer per the selection of `handleDonePeerMsg`. -/
def ownList (st : PeerState) (sp : Peer) : List (Nat × Peer) :=
  if sp.persistent then st.persistentPeers
  else if sp.inbound then st.inboundPeers
  else st.outboundPeers

/-- A peer id not present in any registry map. -/
def idFresh (st : PeerState) (k : Nat) : Prop :=
  alistHasKey st.inboundPeers k = false ∧ alistHasKey st.outboundPeers k = false ∧
    alistHasKey st.persistentPeers k = false

/-- The conditions under which the running server delivers an event to the
loop: `AddPeer` is invoked only from `OnVersion` — after the peer's version
message arrived, so `VersionKnown()` is true — and carries a peer whose id
was freshly assigned by the peer codec (ids are monotonically assigned and
never reused, so it collides with no registered peer); `donePeers` carries
the same `*serverPeer` value that was registered, so a lookup at its id can
only find that very peer.  Ban and query events are unconstrained. -/
def ValidEvent (st : PeerState) : SEvent → Prop
  | SEvent.addPeer _ sp => sp.versionKnown = true ∧ idFresh st sp.pid
  | SEvent.donePeer sp => ∀ q, alistLookup (ownList st sp) sp.pid = some q → q = sp
  | _ => True

/-- The state constructed at the top of `peerHandler` (source lines
1878-1888). -/
def initialPeerState : PeerState :=
  { inboundPeers := [], outboundPeers := [], persistentPeers := []
    banned := [], outboundGroups := fun _ => 0
    suggestionsV4 := [], suggestionsV6 := [] }

/-- States reachable by the event loop from its initial state through valid
events. -/
inductive Reachable (cfg : ServerCfg) : PeerState × AddrMgr → Prop
  | init (am : AddrMgr) : Reachable cfg (initialPeerState, am)
  | step {s : PeerState × AddrMgr} (e : SEvent) :
      Reachable cfg s → ValidEvent s.1 e → Reachable cfg (stepEvent cfg s e)

/-- The number of outbound-or-persistent registered peers of group `g` that
have completed version negotiation (the right-hand side of the
outbound-group invariant). -/
def groupCount (st : PeerState) (g : String) : Nat :=
  ((st.outboundPeers ++ st.persistentPeers).filter
    (fun e => e.2.group = g ∧ e.2.versionKnown)).length

/-- The inductive invariant of the registry state maintained by the event
loop: every stored entry is keyed by its peer's id, lies in the map matching
its inbound and persistent flags, and has completed version negotiation;
keys are unique within each map and across maps; and every outbound-group
counter equals the number of registered outbound-or-persistent peers of its
group that completed version negotiation. -/
structure RegInv (st : PeerState) : Prop where
  inKeys : ∀ e ∈ st.inboundPeers,
    e.1 = e.2.pid ∧ e.2.inbound = true ∧ e.2.versionKnown = true
  outKeys : ∀ e ∈ st.outboundPeers,
    e.1 = e.2.pid ∧ e.2.inbound = false ∧ e.2.persistent = false ∧
      e.2.versionKnown = true
  persKeys : ∀ e ∈ st.persistentPeers,
    e.1 = e.2.pid ∧ e.2.inbound = false ∧ e.2.persistent = true ∧
      e.2.versionKnown = true
  inNodup : (st.inboundPeers.map Prod.fst).Nodup
  outNodup : (st.outboundPeers.map Prod.fst).Nodup
  persNodup : (st.persistentPeers.map Prod.fst).Nodup
  disjIO : ∀ k, alistHasKey st.inboundPeers k = true →
    alistHasKey st.outboundPeers k = false
  disjIP : ∀ k, alistHasKey st.inboundPeers k = true →
    alistHasKey st.persistentPeers k = false
  disjOP : ∀ k, alistHasKey st.outboundPeers k = true →
    alistHasKey st.persistentPeers k = false
  groups : ∀ g, st.outboundGroups g = (groupCount st g : Int)

/-- Configuration for the C8 and C9 witnesses. -/
def c89Cfg : ServerCfg :=
  { shutdown := false, maxPeers := 5, maxSameIP := 0, banDuration := 10
    discoveryDisabled := true, defaultPortOk := true }

/-- Address manager for the C8 and C9 witnesses. -/
def c89Am : AddrMgr := { localAddrs := [], hostToNetAddr := fun _ => none }

/-- A version-negotiated outbound peer for the C8 and C9 witnesses. -/
def c89Peer : Peer :=
  { pid := 1, inbound := false, persistent := false, versionKnown := true
    whitelisted := false, host := some "h", ip := 1, loopback := false
    group := "g16", peerNa := none, naValid := false, family := none }

/-- The reachable state after admitting the witness peer. -/
def c89State : PeerState × AddrMgr :=
  stepEvent c89Cfg (initialPeerState, c89Am) (SEvent.addPeer 0 c89Peer)

/-- Oracle environment for the C2 witness: every fetch succeeds. -/
def c2WitEnv : GDEnv :=
  { mempoolHasTx := fun _ => true, chainHasBlock := fun _ => true, bestHash := 0 }

/-! ## Claim C1: pruning of pending stake revocations -/

/-- A pending stake revocation whose first input references ticket 7. -/
def c1RevocationTx : RTx :=
  { txType := StakeTxType.ssrtx, out0Value := 0, firstInPrevOutHash := 7 }

/-- Inventory key of the pending revocation. -/
def c1Inv : InvVectKey := { invType := 1, hash := 99 }

/-- A chain on which ticket 7 is still live. -/
def c1ChainLive : PruneChain :=
  { nextStakeDiff := some 100, checkLiveTicket := fun _ => true
    isExpired := fun _ => false }

/-- A chain on which ticket 7 is no longer live. -/
def c1ChainNotLive : PruneChain :=
  { nextStakeDiff := some 100, checkLiveTicket := fun _ => false
    isExpired := fun _ => false }

/-! ## Concrete inputs used by witnesses and counterexamples -/

/-- Concrete configuration for the C6 witness. -/
def c6Cfg : ServerCfg :=
  { shutdown := false, maxPeers := 10, maxSameIP := 0, banDuration := 100
    discoveryDisabled := true, defaultPortOk := true }

/-- Concrete peer state for the C6 witness, with host `h1` banned until 10. -/
def c6St : PeerState :=
  { initialPeerState with banned := [("h1", 10)] }

/-- Concrete address manager for the C6 witness. -/
def c6Am : AddrMgr := { localAddrs := [], hostToNetAddr := fun _ => none }

/-- Concrete peer for the C6 witness. -/
def c6Sp : Peer :=
  { pid := 4, inbound := true, persistent := false, versionKnown := true
    whitelisted := false, host := some "h1", ip := 9, loopback := false
    group := "g", peerNa := none, naValid := false, family := none }

/-- Oracle environment for the C10 witness: nothing can be fetched. -/
def c10Env : GDEnv :=
  { mempoolHasTx := fun _ => false, chainHasBlock := fun _ => false, bestHash := 0 }

/-- Environment for the C7 counterexample: a non-simnet outbound peer on a
listening, chain-synced node. -/
def c7Env : VersionEnv :=
  { simNet := false, disableListen := false, isInbound := false
    isCurrent := true, bestLocalRoutable := true, needMoreAddresses := true }

/-- Version message for the C7 counterexample: current protocol version, no
services advertised. -/
def c7Msg : VersionMsg :=
  { protocolVersion := 1, services := 0, disableRelayTx := false }

/-- Configuration for the C3 scenario: discovery enabled, generous limits. -/
def c3Cfg : ServerCfg :=
  { shutdown := false, maxPeers := 100, maxSameIP := 0, banDuration := 0
    discoveryDisabled := false, defaultPortOk := true }

/-- An outbound IPv4 peer with id `i` reporting external host `h`. -/
def c3Peer (i : Nat) (h : String) : Peer :=
  { pid := i, inbound := false, persistent := false, versionKnown := true
    whitelisted := false, host := some (toString i), ip := i, loopback := false
    group := "g", peerNa := some h, naValid := true, family := some NetFamily.v4 }

/-- Address manager for the C3 scenario: `HostToNetAddress` maps the two
hosts of scenario S5 to addresses 1 and 2. -/
def c3Am : AddrMgr :=
  { localAddrs := []
    hostToNetAddr := fun h =>
      if h = "203.0.113.7" then some 1
      else if h = "198.51.100.9" then some 2
      else none }

/-- The S5 scenario of the spec: three outbound peers report 203.0.113.7,
then two report 198.51.100.9, each report running `handleAddPeerMsg`. -/
def c3Run : PeerState × AddrMgr :=
  [(1, "203.0.113.7"), (2, "203.0.113.7"), (3, "203.0.113.7"),
   (4, "198.51.100.9"), (5, "198.51.100.9")].foldl
    (fun s pr =>
      let r := handleAddPeerMsg c3Cfg 0 s.1 s.2 (c3Peer pr.1 pr.2)
      (r.state, r.amgr))
    (initialPeerState, c3Am)

/-- Address manager for the C3 witness. -/
def c3WitAm : AddrMgr :=
  { localAddrs := [], hostToNetAddr := fun h => if h = "a" then some 9 else none }

/-- C1: the prune pass of `rebroadcastHandler` KEEPS a pending revocation
whose referenced ticket is still live and REMOVES one whose ticket is no
longer live — the exact opposite of the claim (and of the code's own comment
and debug message, which say a revocation is removed when its ticket "was
revived", i.e. is live again): the guard at source line 2196 deletes on
`!CheckLiveTicket`. -/
theorem c1_prune_revocation_inverted :
    rebroadcastPrune c1ChainLive [(c1Inv, RData.tx c1RevocationTx)] =
      [(c1Inv, RData.tx c1RevocationTx)] ∧
    rebroadcastPrune c1ChainNotLive [(c1Inv, RData.tx c1RevocationTx)] = [] := by
  constructor <;> rfl

/-! ## Claim C4: rebroadcast timer interval -/

/-- C4 counterexample: a 16-bit sample of 0 is accepted by the rejection
sampler and resets the rebroadcast timer to 0 seconds, which is outside the
claimed closed interval of 1 to 1800 seconds. -/
theorem c4_zero_second_reset :
    rebroadcastTimerReset [0] = some 0 ∧ ¬ (1 ≤ 0) := by
  constructor
  · rfl
  · decide

/-- Helper: one accepted draw of the timer sampler, in closed form. -/
theorem rebroadcastTimerReset_single (u : Nat) :
    rebroadcastTimerReset [u] = if u < 64800 then some (u % 1800) else none := by
  have h : (maxUint16 / 1800) * 1800 = 64800 := by norm_num [maxUint16]
  simp only [rebroadcastTimerReset, randomUint16Number, h]

/-- Helper: the sampler only ever produces values below `max`. -/
theorem randomUint16Number_lt (max : Nat) (hmax : 0 < max) :
    ∀ samples k, randomUint16Number max samples = some k → k < max := by
  intro samples
  induction samples with
  | nil => intro k h; simp [randomUint16Number] at h
  | cons r rest ih =>
      intro k h
      simp only [randomUint16Number] at h
      by_cases hr : r < (maxUint16 / max) * max
      · simp [hr] at h
        rw [← h]
        exact Nat.mod_lt _ hmax
      · simp [hr] at h
        exact ih k h

/-- Helper: among the draws below `36 * 1800` exactly 36 map to each residue. -/
theorem card_filter_mod_1800 (r : Nat) (hr : r < 1800) :
    ((Finset.range 64800).filter (fun u => u % 1800 = r)).card = 36 := by
  have himg : (Finset.range 64800).filter (fun u => u % 1800 = r) =
      (Finset.range 36).image (fun q => q * 1800 + r) := by
    ext u
    simp only [Finset.mem_filter, Finset.mem_range, Finset.mem_image]
    constructor
    · rintro ⟨hu, hmod⟩
      exact ⟨u / 1800, by omega, by omega⟩
    · rintro ⟨q, hq, rfl⟩
      constructor
      · omega
      · omega
  rw [himg, Finset.card_image_of_injective _ (fun a b h => by omega)]
  simp

/-- C4 (amended): every value the timer is reset to is a whole number of
seconds in the interval from 0 to 1799 inclusive, and under a uniform 16-bit
random source every value in that interval is produced by exactly 36 of the
65536 possible draws — equal probability, no modulo bias. -/
theorem c4_timer_range_and_unbiased :
    (∀ samples k, rebroadcastTimerReset samples = some k → k ≤ 1799) ∧
    (∀ r, r ≤ 1799 →
      ((Finset.range 65536).filter
        (fun u => rebroadcastTimerReset [u] = some r)).card = 36) := by
  constructor
  · intro samples k h
    have := randomUint16Number_lt 1800 (by norm_num) samples k h
    omega
  · intro r hr
    have hset : (Finset.range 65536).filter
        (fun u => rebroadcastTimerReset [u] = some r) =
        (Finset.range 64800).filter (fun u => u % 1800 = r) := by
      ext u
      simp only [Finset.mem_filter, Finset.mem_range, rebroadcastTimerReset_single]
      by_cases hu : u < 64800
      · rw [if_pos hu]
        simp only [Option.some.injEq]
        constructor
        · rintro ⟨h1, h2⟩
          exact ⟨hu, h2⟩
        · rintro ⟨h1, h2⟩
          exact ⟨by omega, h2⟩
      · simp [hu]
    rw [hset]
    exact card_filter_mod_1800 r (by omega)

/-- C4 amended-claim witness: the theorem applied to the accepted draw 1799,
which resets the timer to 1799 seconds. -/
theorem c4_witness :
    (1799 : Nat) ≤ 1799 ∧
    ((Finset.range 65536).filter
      (fun u => rebroadcastTimerReset [u] = some 1799)).card = 36 :=
  ⟨c4_timer_range_and_unbiased.1 [1799] 1799 (by rfl),
    c4_timer_range_and_unbiased.2 1799 (by norm_num)⟩

/-! ## Claim C5: the addBanScore policy -/

/-- C5: `addBanScore(p, t, reason)` enqueues the peer for ban via `BanPeer`
and disconnects it exactly when banning is enabled, the peer is not
whitelisted, the increments are not both zero, and the combined score
returned by the `Increase` exceeds the ban threshold; and in the
disabled, whitelisted, and both-zero cases the ban-score state is never
mutated. -/
theorem c5_addBanScore_policy (cfg : BanCfg) (decay : Nat → Nat → Nat)
    (now : Nat) (wl : Bool) (bs : DynamicBanScore) (p t : Nat) :
    ((addBanScore cfg decay now wl bs p t).banPeer = true ∧
        (addBanScore cfg decay now wl bs p t).disconnected = true ↔
      cfg.disableBanning = false ∧ wl = false ∧ ¬ (p = 0 ∧ t = 0) ∧
        cfg.banThreshold < (bs.increaseAt decay now p t).2) ∧
    (cfg.disableBanning = true ∨ wl = true ∨ (p = 0 ∧ t = 0) →
      (addBanScore cfg decay now wl bs p t).banScore = bs) := by
  unfold addBanScore
  rcases cfg with ⟨db, thr⟩
  cases db
  · cases wl
    · by_cases hz : t = 0 ∧ p = 0
      · obtain ⟨ht, hp⟩ := hz
        subst ht
        subst hp
        simp
      · have hz' : ¬ (p = 0 ∧ t = 0) := fun h => hz ⟨h.2, h.1⟩
        by_cases hban : thr < (bs.increaseAt decay now p t).2
        · have hwarn : thr / 2 < (bs.increaseAt decay now p t).2 := by omega
          simp [hz, hz', hwarn, hban]
        · by_cases hwarn : thr / 2 < (bs.increaseAt decay now p t).2
          · simp [hz, hz', hwarn, hban]
          · simp [hz, hz', hwarn, hban]
    · simp
  · simp

/-- C5 witness: a non-whitelisted peer with banning enabled whose increase
pushes the score past the threshold is banned and disconnected, and a
whitelisted call leaves the score state untouched. -/
theorem c5_witness :
    (addBanScore { disableBanning := false, banThreshold := 10 }
        (fun tr _ => tr) 5 false { persistentScore := 0, transientScore := 0, lastUnix := 0 }
        0 20).banPeer = true ∧
    (addBanScore { disableBanning := false, banThreshold := 10 }
        (fun tr _ => tr) 5 true { persistentScore := 3, transientScore := 4, lastUnix := 0 }
        1 2).banScore =
      { persistentScore := 3, transientScore := 4, lastUnix := 0 } := by
  constructor
  · exact ((c5_addBanScore_policy { disableBanning := false, banThreshold := 10 }
      (fun tr _ => tr) 5 false { persistentScore := 0, transientScore := 0, lastUnix := 0 }
      0 20).1.mpr ⟨rfl, rfl, by decide, by decide⟩).1
  · exact (c5_addBanScore_policy { disableBanning := false, banThreshold := 10 }
      (fun tr _ => tr) 5 true { persistentScore := 3, transientScore := 4, lastUnix := 0 }
      1 2).2 (Or.inr (Or.inl rfl))

/-! ## Claim C6: banned hosts at admission -/

/-- C6: on a new-peer event for a host with a banned entry, an expiry after
`now` rejects the peer with a disconnect and leaves every part of the state —
in particular all three registry maps — untouched, while an expiry at or
before `now` deletes the entry and admission continues with the remaining
checks; hence a peer whose host is banned with unexpired expiry is never
inserted into any registry map. -/
theorem c6_banned_admission (cfg : ServerCfg) (now : Nat) (st : PeerState)
    (am : AddrMgr) (sp : Peer) (host : String) (banEnd : Nat)
    (hshut : cfg.shutdown = false) (hhost : sp.host = some host)
    (hban : alistLookup st.banned host = some banEnd) :
    (now < banEnd →
      handleAddPeerMsg cfg now st am sp =
        { state := st, amgr := am, added := false, disconnected := true }) ∧
    (banEnd ≤ now →
      handleAddPeerMsg cfg now st am sp =
        handleAddPeerAdmit cfg { st with banned := alistErase st.banned host }
          am sp) := by
  constructor
  · intro h
    simp [handleAddPeerMsg, hshut, hhost, hban, h]
  · intro h
    have h' : ¬ now < banEnd := by omega
    simp [handleAddPeerMsg, hshut, hhost, hban, h']

/-- C6 witness: at time 5 the banned-until-10 host is rejected with the state
unchanged. -/
theorem c6_witness :
    handleAddPeerMsg c6Cfg 5 c6St c6Am c6Sp =
      { state := c6St, amgr := c6Am, added := false, disconnected := true } :=
  (c6_banned_admission c6Cfg 5 c6St c6Am c6Sp "h1" 10 rfl rfl rfl).1 (by decide)

/-! ## Claim C10: the push helpers on a fetch miss -/

/-- C10: when the transaction or block fetch fails, `pushTxMsg` and
`pushBlockMsg` return an error, enqueue nothing to the peer, and send exactly
one signal on the completion channel when one was supplied (and none
otherwise), so the final wait of the getdata loop is always signalled for a
missing item. -/
theorem c10_push_miss (env : GDEnv) (hash : Nat) (c waitChan : Option Nat)
    (continueHash : Option Nat) :
    (env.mempoolHasTx hash = false →
      pushTxMsg env hash c waitChan =
        (true, match c with
          | some ch => [GDEvent.chanSend ch]
          | none => [])) ∧
    (env.chainHasBlock hash = false →
      pushBlockMsg env continueHash hash c waitChan =
        (true, continueHash, match c with
          | some ch => [GDEvent.chanSend ch]
          | none => [])) := by
  constructor
  · intro h
    cases c <;> simp [pushTxMsg, h]
  · intro h
    cases c <;> simp [pushBlockMsg, h]

/-- C10 witness: a missing transaction with completion channel 3 yields an
error and exactly one signal on channel 3; a missing block without a channel
yields an error and no signal. -/
theorem c10_witness :
    pushTxMsg c10Env 5 (some 3) none = (true, [GDEvent.chanSend 3]) ∧
    pushBlockMsg c10Env (some 8) 6 none (some 2) = (true, some 8, []) := by
  constructor
  · exact (c10_push_miss c10Env 5 (some 3) none (some 8)).1 rfl
  · exact (c10_push_miss c10Env 6 none (some 2) (some 8)).2 rfl

/-! ## Claim C7: rejecting outbound peers without the full-node service -/

/-- C7 counterexample: for an outbound peer advertising no services,
`OnVersion` does return the structured reject with the hex missing-services
mask and never reaches `AddPeer` — but the claim that "the address manager is
not updated for that peer" is false: the `SetServices` update for non-simnet
outbound peers runs before the services gate (source lines 443-445, a
deliberate order per the NOTE comment there). -/
theorem c7_setservices_before_reject :
    (onVersion c7Env c7Msg).1 =
      some { cmd := "version", code := RejectCode.nonstandard
             reason := "required services 0x1 not offered" } ∧
    VEvent.setServices 0 ∈ (onVersion c7Env c7Msg).2 ∧
    VEvent.addPeer ∉ (onVersion c7Env c7Msg).2 := by
  refine ⟨?_, ?_, ?_⟩ <;> decide

/-- C7 (amended): for every outbound peer whose version passes the minimum
protocol gate but lacks the full-node service bit, `OnVersion` returns the
reject whose reason embeds the `%#x` rendering of the missing mask, and the
only side effect is the deliberate early `SetServices` record in the address
manager for non-simnet peers — no `Good` mark, no address push, no getaddr,
no time sample, no sync-candidate notification, and no `AddPeer`. -/
theorem c7_reject_missing_services (env : VersionEnv) (msg : VersionMsg)
    (hin : env.isInbound = false)
    (hsv : hasServices msg.services sfNodeNetwork = false)
    (hver : initialProcotolVersion ≤ msg.protocolVersion) :
    onVersion env msg =
      (some { cmd := "version", code := RejectCode.nonstandard
              reason := "required services " ++
                goHex (missingServices sfNodeNetwork msg.services) ++
                " not offered" },
       if env.simNet then [] else [VEvent.setServices msg.services]) := by
  have hver' : ¬ msg.protocolVersion < initialProcotolVersion := by omega
  by_cases hsim : env.simNet
  · simp [onVersion, hin, hsv, hver', hsim]
  · simp [onVersion, hin, hsv, hver', hsim]

/-- C7 amended-claim witness: the theorem applied to the concrete outbound
zero-services peer. -/
theorem c7_witness :
    onVersion c7Env c7Msg =
      (some { cmd := "version", code := RejectCode.nonstandard
              reason := "required services 0x1 not offered" },
       [VEvent.setServices 0]) := by
  have h := c7_reject_missing_services c7Env c7Msg rfl (by decide) (by decide)
  simpa using h

/-! ## Claim C3: local-address discovery promotion -/

/-- C3 counterexample: after the five reports the tallies are 3 for
203.0.113.7 and 2 for 198.51.100.9, yet only 203.0.113.7 (address 1) was
registered as a local address — the resolver promotes only the highest-tally
host, so the host whose tally reached 2 beside a tally-3 host is never
promoted, contradicting the claim that both are. -/
theorem c3_second_host_not_promoted :
    c3Run.1.suggestionsV4 = [("203.0.113.7", 3), ("198.51.100.9", 2)] ∧
    (1 : Nat) ∈ c3Run.2.localAddrs ∧ (2 : Nat) ∉ c3Run.2.localAddrs := by
  refine ⟨?_, ?_, ?_⟩ <;> decide

/-- Helper: the fold of `resolveBest`, started from a non-empty best
candidate, yields that candidate or a list entry, never decreases the tally,
and dominates every entry's tally. -/
theorem resolveBest_go (l : List (String × Int)) :
    ∀ acc : String × Int, ¬ acc.1 = "" → (∀ p ∈ l, ¬ p.1 = "") →
      (l.foldl (fun best e => if best.1 = "" ∨ best.2 < e.2 then e else best) acc ∈ l ∨
        l.foldl (fun best e => if best.1 = "" ∨ best.2 < e.2 then e else best) acc = acc) ∧
      acc.2 ≤ (l.foldl (fun best e => if best.1 = "" ∨ best.2 < e.2 then e else best) acc).2 ∧
      ∀ q ∈ l, q.2 ≤
        (l.foldl (fun best e => if best.1 = "" ∨ best.2 < e.2 then e else best) acc).2 := by
  induction l with
  | nil =>
      intro acc hacc _
      exact ⟨Or.inr rfl, le_refl _, by simp⟩
  | cons e rest ih =>
      intro acc hacc hne
      have hne' : ∀ p ∈ rest, ¬ p.1 = "" := fun p hp => hne p (List.mem_cons_of_mem _ hp)
      have he1 : ¬ e.1 = "" := hne e (List.mem_cons_self _ _)
      simp only [List.foldl_cons]
      by_cases hrep : acc.1 = "" ∨ acc.2 < e.2
      · rw [if_pos hrep]
        obtain ⟨h1, h2, h3⟩ := ih e he1 hne'
        refine ⟨?_, ?_, ?_⟩
        · rcases h1 with h1 | h1
          · exact Or.inl (List.mem_cons_of_mem _ h1)
          · exact Or.inl (by rw [h1]; exact List.mem_cons_self _ _)
        · rcases hrep with hrep | hrep
          · exact absurd hrep hacc
          · omega
        · intro q hq
          rcases List.mem_cons.mp hq with hq | hq
          · rw [hq]; exact h2
          · exact h3 q hq
      · rw [if_neg hrep]
        obtain ⟨h1, h2, h3⟩ := ih acc hacc hne'
        refine ⟨?_, h2, ?_⟩
        · rcases h1 with h1 | h1
          · exact Or.inl (List.mem_cons_of_mem _ h1)
          · exact Or.inr h1
        · intro q hq
          rcases List.mem_cons.mp hq with hq | hq
          · push_neg at hrep
            rw [hq]
            omega
          · exact h3 q hq

/-- Helper: on a non-empty tally list with non-empty host keys, the best
suggestion is one of the entries and its tally dominates all entries. -/
theorem resolveBest_spec (sugg : List (String × Int)) (hnil : sugg ≠ [])
    (hne : ∀ p ∈ sugg, ¬ p.1 = "") :
    resolveBest sugg ∈ sugg ∧ ∀ q ∈ sugg, q.2 ≤ (resolveBest sugg).2 := by
  match sugg, hnil with
  | x :: rest, _ =>
    have hx : ¬ x.1 = "" := hne x (List.mem_cons_self _ _)
    have hne' : ∀ p ∈ rest, ¬ p.1 = "" :=
      fun p hp => hne p (List.mem_cons_of_mem _ hp)
    have hf : resolveBest (x :: rest) =
        rest.foldl (fun best e => if best.1 = "" ∨ best.2 < e.2 then e else best) x := by
      simp [resolveBest]
    obtain ⟨h1, h2, h3⟩ := resolveBest_go rest x hx hne'
    rw [hf]
    constructor
    · rcases h1 with h1 | h1
      · exact List.mem_cons_of_mem _ h1
      · rw [h1]; exact List.mem_cons_self _ _
    · intro q hq
      rcases List.mem_cons.mp hq with hq | hq
      · rw [hq]; exact h2
      · exact h3 q hq

/-- C3 (amended): after each tally increment the resolver can only register
the local address of a host holding the highest tally of its family, and only
when that tally is at least 2: any address in the resolver's output was
either already registered or converts from a suggestion whose tally is at
least 2 and dominates every other suggestion of the family.  A host whose
tally merely reaches 2 beside a strictly higher one — and a host reported by
a single peer — is not promoted. -/
theorem c3_resolver_promotes_only_best (sugg : List (String × Int)) (am : AddrMgr)
    (hne : ∀ p ∈ sugg, ¬ p.1 = "") :
    ∀ na ∈ (resolveLocalAddress sugg am).localAddrs,
      na ∈ am.localAddrs ∨
      ∃ h t, (h, t) ∈ sugg ∧ am.hostToNetAddr h = some na ∧ 2 ≤ t ∧
        ∀ q ∈ sugg, q.2 ≤ t := by
  intro na hna
  simp only [resolveLocalAddress] at hna
  by_cases hlen : sugg.length = 0
  · rw [if_pos hlen] at hna
    exact Or.inl hna
  · rw [if_neg hlen] at hna
    by_cases hb : (resolveBest sugg).2 < 2
    · rw [if_pos hb] at hna
      exact Or.inl hna
    · rw [if_neg hb] at hna
      cases hmatch : am.hostToNetAddr (resolveBest sugg).1 with
      | none =>
          rw [hmatch] at hna
          exact Or.inl hna
      | some na' =>
          rw [hmatch] at hna
          dsimp only at hna
          by_cases hmem : na' ∈ am.localAddrs
          · rw [if_pos hmem] at hna
            exact Or.inl hna
          · rw [if_neg hmem] at hna
            simp only [List.mem_cons] at hna
            rcases hna with hna | hna
            · subst hna
              have hnil : sugg ≠ [] := fun h => hlen (by simp [h])
              obtain ⟨hbm, hmax⟩ := resolveBest_spec sugg hnil hne
              refine Or.inr ⟨(resolveBest sugg).1, (resolveBest sugg).2, ?_, hmatch, ?_, hmax⟩
              · simpa using hbm
              · omega
            · exact Or.inl hna

/-- C3 amended-claim witness: a single host with tally 3 is promoted, and the
theorem attributes address 9 to that dominating suggestion. -/
theorem c3_witness :
    (9 : Nat) ∈ c3WitAm.localAddrs ∨
      ∃ h t, (h, t) ∈ [("a", (3 : Int))] ∧ c3WitAm.hostToNetAddr h = some 9 ∧
        2 ≤ t ∧ ∀ q ∈ [("a", (3 : Int))], q.2 ≤ t :=
  c3_resolver_promotes_only_best [("a", 3)] c3WitAm (by decide) 9 (by decide)

/-! ## Association-list lemmas for the registry invariants -/

/-- A successful lookup locates a member of the list. -/
theorem alistLookup_mem {α β : Type} [DecidableEq α] {l : List (α × β)} {k : α}
    {v : β} (h : alistLookup l k = some v) : (k, v) ∈ l := by
  induction l with
  | nil => simp [alistLookup] at h
  | cons e rest ih =>
      by_cases he : e.1 = k
      · simp only [alistLookup, he, if_pos] at h
        have : e = (k, v) := by
          rcases e with ⟨a, b⟩
          simp only at he
          simp only [Option.some.injEq] at h
          simp [he, h]
        rw [← this]
        exact List.mem_cons_self _ _
      · simp only [alistLookup, he, if_neg, if_false] at h
        exact List.mem_cons_of_mem _ (ih h)

/-- Key presence in terms of the key list. -/
theorem alistHasKey_iff_mem_keys {α β : Type} [DecidableEq α] (l : List (α × β))
    (k : α) : alistHasKey l k = true ↔ k ∈ l.map Prod.fst := by
  induction l with
  | nil => simp [alistHasKey, alistLookup]
  | cons e rest ih =>
      by_cases he : e.1 = k
      · simp [alistHasKey, alistLookup, he]
      · simp only [alistHasKey, alistLookup, he, if_neg, if_false, List.map_cons,
          List.mem_cons]
        rw [← alistHasKey]
        rw [ih]
        constructor
        · exact Or.inr
        · rintro (h | h)
          · exact absurd h.symm he
          · exact h

/-- Key absence in terms of the key list. -/
theorem alistHasKey_eq_false_iff {α β : Type} [DecidableEq α] (l : List (α × β))
    (k : α) : alistHasKey l k = false ↔ k ∉ l.map Prod.fst := by
  rw [← Bool.not_eq_true, not_iff_not]
  exact alistHasKey_iff_mem_keys l k

/-- Erasing drops a head whose key matches. -/
theorem alistErase_cons_drop {α β : Type} [DecidableEq α] (e : α × β)
    (rest : List (α × β)) (k : α) (he : e.1 = k) :
    alistErase (e :: rest) k = alistErase rest k := by
  simp [alistErase, List.filter_cons, he]

/-- Erasing keeps a head whose key differs. -/
theorem alistErase_cons_keep {α β : Type} [DecidableEq α] (e : α × β)
    (rest : List (α × β)) (k : α) (he : ¬ e.1 = k) :
    alistErase (e :: rest) k = e :: alistErase rest k := by
  simp [alistErase, List.filter_cons, he]

/-- Erasing an absent key is the identity. -/
theorem alistErase_of_fresh {α β : Type} [DecidableEq α] {l : List (α × β)}
    {k : α} (h : alistHasKey l k = false) : alistErase l k = l := by
  rw [alistHasKey_eq_false_iff] at h
  rw [alistErase]
  apply List.filter_eq_self.mpr
  intro e he
  have hek : ¬ e.1 = k := fun hek => h (hek ▸ List.mem_map_of_mem Prod.fst he)
  simpa using hek

/-- Inserting a fresh key appends the binding. -/
theorem alistInsert_fresh {α β : Type} [DecidableEq α] {l : List (α × β)}
    {k : α} (v : β) (h : alistHasKey l k = false) :
    alistInsert l k v = l ++ [(k, v)] := by
  rw [alistInsert, alistErase_of_fresh h]

/-- Unique keys survive appending a fresh binding. -/
theorem nodup_keys_append {α β : Type} [DecidableEq α] {l : List (α × β)}
    {k : α} (v : β) (hnd : (l.map Prod.fst).Nodup)
    (h : alistHasKey l k = false) :
    (((l ++ [(k, v)]).map Prod.fst)).Nodup := by
  rw [alistHasKey_eq_false_iff] at h
  rw [List.map_append]
  simp [List.nodup_append, hnd, h]

/-- Key presence after appending a fresh binding. -/
theorem alistHasKey_append_single {α β : Type} [DecidableEq α]
    (l : List (α × β)) (k k' : α) (v : β) :
    alistHasKey (l ++ [(k, v)]) k' = true ↔ alistHasKey l k' = true ∨ k' = k := by
  rw [alistHasKey_iff_mem_keys, alistHasKey_iff_mem_keys, List.map_append]
  simp [eq_comm]

/-- A lookup hit in an erased list was a hit in the original. -/
theorem alistHasKey_erase_imp {α β : Type} [DecidableEq α] (l : List (α × β))
    (k k' : α) (h : alistHasKey (alistErase l k) k' = true) :
    alistHasKey l k' = true := by
  rw [alistHasKey_iff_mem_keys] at h ⊢
  rw [alistErase] at h
  obtain ⟨e, hef, hk⟩ := List.mem_map.mp h
  exact hk ▸ List.mem_map_of_mem Prod.fst (List.mem_filter.mp hef).1

/-- Decomposition of an erase at a present key under unique keys: the list
splits around the unique binding and the erase removes exactly it. -/
theorem alistErase_decomp {α β : Type} [DecidableEq α] {l : List (α × β)}
    {k : α} {v : β} (hnd : (l.map Prod.fst).Nodup)
    (hlk : alistLookup l k = some v) :
    ∃ l₁ l₂, l = l₁ ++ (k, v) :: l₂ ∧ alistErase l k = l₁ ++ l₂ := by
  induction l with
  | nil => simp [alistLookup] at hlk
  | cons e rest ih =>
      simp only [List.map_cons, List.nodup_cons] at hnd
      obtain ⟨hnotin, hndr⟩ := hnd
      by_cases he : e.1 = k
      · have hv : e.2 = v := by
          simpa [alistLookup, he] using hlk
        have hek : e = (k, v) := by
          rcases e with ⟨a, b⟩
          simp only at he hv
          simp [he, hv]
        have hfresh : alistHasKey rest k = false := by
          rw [alistHasKey_eq_false_iff]
          rw [he] at hnotin
          exact hnotin
        refine ⟨[], rest, by simp [hek], ?_⟩
        rw [alistErase_cons_drop e rest k he, alistErase_of_fresh hfresh]
        simp
      · have hlk' : alistLookup rest k = some v := by
          simpa [alistLookup, he] using hlk
        obtain ⟨l₁, l₂, hsplit, herase⟩ := ih hndr hlk'
        refine ⟨e :: l₁, l₂, by simp [hsplit], ?_⟩
        rw [alistErase_cons_keep e rest k he, herase]
        simp

/-- Removing one element changes a filter count by exactly its own
predicate value. -/
theorem filter_length_remove_mid {α : Type} (l₁ l₂ : List α) (e : α)
    (pred : α → Bool) :
    ((l₁ ++ e :: l₂).filter pred).length =
      ((l₁ ++ l₂).filter pred).length + (if pred e then 1 else 0) := by
  by_cases hp : pred e
  · simp only [List.filter_append, List.filter_cons, hp, if_true, List.length_append,
      List.length_cons]
    omega
  · simp [List.filter_append, List.filter_cons, hp]

/-- `disconnectPeer` returns a decomposition of the list around the removed
entry. -/
theorem disconnectPeerA_found {l : List (Nat × Peer)} {cmp : Peer → Bool}
    {e : Nat × Peer} {l' : List (Nat × Peer)}
    (h : disconnectPeerA l cmp = (some e, l')) :
    ∃ l₁ l₂, l = l₁ ++ e :: l₂ ∧ l' = l₁ ++ l₂ := by
  induction l generalizing l' with
  | nil => simp [disconnectPeerA] at h
  | cons x rest ih =>
      by_cases hx : cmp x.2
      · simp only [disconnectPeerA, hx, if_pos] at h
        have he : some x = some e := (Prod.ext_iff.mp h).1
        have hl : rest = l' := (Prod.ext_iff.mp h).2
        have hx' : x = e := by injection he
        refine ⟨[], rest, by simp [hx'], by simp [← hl]⟩
      · simp only [disconnectPeerA, hx] at h
        have he : (disconnectPeerA rest cmp).1 = some e := by
          have := (Prod.ext_iff.mp h).1
          simpa using this
        have hl : x :: (disconnectPeerA rest cmp).2 = l' := by
          have := (Prod.ext_iff.mp h).2
          simpa using this
        have hpair : disconnectPeerA rest cmp =
            (some e, (disconnectPeerA rest cmp).2) := Prod.ext_iff.mpr ⟨he, rfl⟩
        obtain ⟨l₁, l₂, hsplit, hrest⟩ := ih hpair
        refine ⟨x :: l₁, l₂, by simp [hsplit], ?_⟩
        rw [← hl, hrest]
        simp

/-! ## Preservation of the registry invariant -/

/-- The invariant transports across states with identical registry fields. -/
theorem regInv_of_fields {st st' : PeerState}
    (h1 : st'.inboundPeers = st.inboundPeers)
    (h2 : st'.outboundPeers = st.outboundPeers)
    (h3 : st'.persistentPeers = st.persistentPeers)
    (h4 : st'.outboundGroups = st.outboundGroups)
    (hinv : RegInv st) : RegInv st' := by
  constructor
  · rw [h1]; exact hinv.inKeys
  · rw [h2]; exact hinv.outKeys
  · rw [h3]; exact hinv.persKeys
  · rw [h1]; exact hinv.inNodup
  · rw [h2]; exact hinv.outNodup
  · rw [h3]; exact hinv.persNodup
  · intro k; rw [h1, h2]; exact hinv.disjIO k
  · intro k; rw [h1, h3]; exact hinv.disjIP k
  · intro k; rw [h2, h3]; exact hinv.disjOP k
  · intro g
    rw [h4]
    have hc : groupCount st' g = groupCount st g := by
      simp [groupCount, h2, h3]
    rw [hc]
    exact hinv.groups g

/-- The discovery tail never touches the registry maps or the group
counters. -/
theorem discoverLocalAddress_registry (cfg : ServerCfg) (st : PeerState)
    (am : AddrMgr) (sp : Peer) :
    (discoverLocalAddress cfg st am sp).1.inboundPeers = st.inboundPeers ∧
    (discoverLocalAddress cfg st am sp).1.outboundPeers = st.outboundPeers ∧
    (discoverLocalAddress cfg st am sp).1.persistentPeers = st.persistentPeers ∧
    (discoverLocalAddress cfg st am sp).1.outboundGroups = st.outboundGroups := by
  unfold discoverLocalAddress
  by_cases hd : cfg.discoveryDisabled
  · simp [hd]
  · simp only [hd]
    cases sp.peerNa with
    | none => simp
    | some naHost =>
        by_cases hv : sp.naValid
        · by_cases hp : cfg.defaultPortOk
          · cases hf : sp.family with
            | none => simp [hv, hp, hf]
            | some fam => cases fam <;> simp [hv, hp, hf]
          · simp [hv, hp]
        · simp [hv]

/-- Inserting a freshly identified, version-negotiated inbound peer preserves
the invariant. -/
theorem regInv_insert_inbound (st st' : PeerState) (sp : Peer)
    (hinv : RegInv st) (hvk : sp.versionKnown = true) (hib : sp.inbound = true)
    (hfresh : idFresh st sp.pid)
    (h1 : st'.inboundPeers = alistInsert st.inboundPeers sp.pid sp)
    (h2 : st'.outboundPeers = st.outboundPeers)
    (h3 : st'.persistentPeers = st.persistentPeers)
    (h4 : st'.outboundGroups = st.outboundGroups) : RegInv st' := by
  obtain ⟨hfin, hfout, hfpers⟩ := hfresh
  rw [alistInsert_fresh sp hfin] at h1
  constructor
  · rw [h1]
    intro e he
    rcases List.mem_append.mp he with he | he
    · exact hinv.inKeys e he
    · simp only [List.mem_singleton] at he
      subst he
      exact ⟨rfl, hib, hvk⟩
  · rw [h2]; exact hinv.outKeys
  · rw [h3]; exact hinv.persKeys
  · rw [h1]; exact nodup_keys_append sp hinv.inNodup hfin
  · rw [h2]; exact hinv.outNodup
  · rw [h3]; exact hinv.persNodup
  · intro k hk
    rw [h1] at hk
    rw [h2]
    rcases (alistHasKey_append_single _ _ _ _).mp hk with hk | hk
    · exact hinv.disjIO k hk
    · subst hk
      exact hfout
  · intro k hk
    rw [h1] at hk
    rw [h3]
    rcases (alistHasKey_append_single _ _ _ _).mp hk with hk | hk
    · exact hinv.disjIP k hk
    · subst hk
      exact hfpers
  · intro k hk
    rw [h2] at hk
    rw [h3]
    exact hinv.disjOP k hk
  · intro g
    rw [h4]
    have hc : groupCount st' g = groupCount st g := by
      simp [groupCount, h2, h3]
    rw [hc]
    exact hinv.groups g

/-- Inserting a freshly identified, version-negotiated outbound peer, with
its group counter bumped, preserves the invariant. -/
theorem regInv_insert_outbound (st st' : PeerState) (sp : Peer)
    (hinv : RegInv st) (hvk : sp.versionKnown = true) (hib : sp.inbound = false)
    (hpers : sp.persistent = false) (hfresh : idFresh st sp.pid)
    (h1 : st'.inboundPeers = st.inboundPeers)
    (h2 : st'.outboundPeers = alistInsert st.outboundPeers sp.pid sp)
    (h3 : st'.persistentPeers = st.persistentPeers)
    (h4 : st'.outboundGroups = bumpGroup st.outboundGroups sp.group 1) :
    RegInv st' := by
  obtain ⟨hfin, hfout, hfpers⟩ := hfresh
  rw [alistInsert_fresh sp hfout] at h2
  constructor
  · rw [h1]; exact hinv.inKeys
  · rw [h2]
    intro e he
    rcases List.mem_append.mp he with he | he
    · exact hinv.outKeys e he
    · simp only [List.mem_singleton] at he
      subst he
      exact ⟨rfl, hib, hpers, hvk⟩
  · rw [h3]; exact hinv.persKeys
  · rw [h1]; exact hinv.inNodup
  · rw [h2]; exact nodup_keys_append sp hinv.outNodup hfout
  · rw [h3]; exact hinv.persNodup
  · intro k hk
    rw [h1] at hk
    rw [h2]
    rw [Bool.eq_false_iff]
    intro htrue
    rcases (alistHasKey_append_single _ _ _ _).mp htrue with hh | hh
    · have := hinv.disjIO k hk
      rw [this] at hh
      exact Bool.false_ne_true hh
    · subst hh
      rw [hfin] at hk
      exact Bool.false_ne_true hk
  · intro k hk
    rw [h1] at hk
    rw [h3]
    exact hinv.disjIP k hk
  · intro k hk
    rw [h2] at hk
    rw [h3]
    rcases (alistHasKey_append_single _ _ _ _).mp hk with hk | hk
    · exact hinv.disjOP k hk
    · subst hk
      exact hfpers
  · intro g
    rw [h4]
    have hcnt : groupCount st' g = groupCount st g +
        (if sp.group = g ∧ sp.versionKnown = true then 1 else 0) := by
      have h0 : st'.outboundPeers ++ st'.persistentPeers =
          (st.outboundPeers ++ [(sp.pid, sp)]) ++ st.persistentPeers := by
        rw [h2, h3]
      have h0' : (st.outboundPeers ++ [(sp.pid, sp)]) ++ st.persistentPeers =
          st.outboundPeers ++ (sp.pid, sp) :: st.persistentPeers := by
        simp
      simp only [groupCount, h0, h0']
      rw [filter_length_remove_mid]
      simp
    rw [hcnt]
    unfold bumpGroup
    by_cases hg : g = sp.group
    · subst hg
      rw [if_pos rfl, hinv.groups sp.group]
      simp only [hvk, and_true, if_pos rfl]
      push_cast
      ring
    · rw [if_neg hg]
      have hng : ¬ (sp.group = g ∧ sp.versionKnown = true) := fun hh => hg hh.1.symm
      rw [hinv.groups g]
      simp [hng]

/-- Inserting a freshly identified, version-negotiated persistent peer, with
its group counter bumped, preserves the invariant. -/
theorem regInv_insert_persistent (st st' : PeerState) (sp : Peer)
    (hinv : RegInv st) (hvk : sp.versionKnown = true) (hib : sp.inbound = false)
    (hpers : sp.persistent = true) (hfresh : idFresh st sp.pid)
    (h1 : st'.inboundPeers = st.inboundPeers)
    (h2 : st'.outboundPeers = st.outboundPeers)
    (h3 : st'.persistentPeers = alistInsert st.persistentPeers sp.pid sp)
    (h4 : st'.outboundGroups = bumpGroup st.outboundGroups sp.group 1) :
    RegInv st' := by
  obtain ⟨hfin, hfout, hfpers⟩ := hfresh
  rw [alistInsert_fresh sp hfpers] at h3
  constructor
  · rw [h1]; exact hinv.inKeys
  · rw [h2]; exact hinv.outKeys
  · rw [h3]
    intro e he
    rcases List.mem_append.mp he with he | he
    · exact hinv.persKeys e he
    · simp only [List.mem_singleton] at he
      subst he
      exact ⟨rfl, hib, hpers, hvk⟩
  · rw [h1]; exact hinv.inNodup
  · rw [h2]; exact hinv.outNodup
  · rw [h3]; exact nodup_keys_append sp hinv.persNodup hfpers
  · intro k hk
    rw [h1] at hk
    rw [h2]
    exact hinv.disjIO k hk
  · intro k hk
    rw [h1] at hk
    rw [h3]
    rw [Bool.eq_false_iff]
    intro htrue
    rcases (alistHasKey_append_single _ _ _ _).mp htrue with hh | hh
    · have := hinv.disjIP k hk
      rw [this] at hh
      exact Bool.false_ne_true hh
    · subst hh
      rw [hfin] at hk
      exact Bool.false_ne_true hk
  · intro k hk
    rw [h2] at hk
    rw [h3]
    rw [Bool.eq_false_iff]
    intro htrue
    rcases (alistHasKey_append_single _ _ _ _).mp htrue with hh | hh
    · have := hinv.disjOP k hk
      rw [this] at hh
      exact Bool.false_ne_true hh
    · subst hh
      rw [hfout] at hk
      exact Bool.false_ne_true hk
  · intro g
    rw [h4]
    have hcnt : groupCount st' g = groupCount st g +
        (if sp.group = g ∧ sp.versionKnown = true then 1 else 0) := by
      have h0 : st'.outboundPeers ++ st'.persistentPeers =
          (st.outboundPeers ++ st.persistentPeers) ++ [(sp.pid, sp)] := by
        rw [h2, h3, List.append_assoc]
      have h0' : (st.outboundPeers ++ st.persistentPeers) ++ [(sp.pid, sp)] =
          (st.outboundPeers ++ st.persistentPeers) ++ (sp.pid, sp) :: [] := rfl
      simp only [groupCount, h0, h0']
      rw [filter_length_remove_mid]
      simp
    rw [hcnt]
    unfold bumpGroup
    by_cases hg : g = sp.group
    · subst hg
      rw [if_pos rfl, hinv.groups sp.group]
      simp only [hvk, and_true, if_pos rfl]
      push_cast
      ring
    · rw [if_neg hg]
      have hng : ¬ (sp.group = g ∧ sp.versionKnown = true) := fun hh => hg hh.1.symm
      rw [hinv.groups g]
      simp [hng]

/-- Removing one registered inbound peer (leaving counters alone) preserves
the invariant. -/
theorem regInv_remove_mid_inbound (st st' : PeerState) (l₁ l₂ : List (Nat × Peer))
    (e : Nat × Peer)
    (hsplit : st.inboundPeers = l₁ ++ e :: l₂)
    (h1 : st'.inboundPeers = l₁ ++ l₂)
    (h2 : st'.outboundPeers = st.outboundPeers)
    (h3 : st'.persistentPeers = st.persistentPeers)
    (h4 : st'.outboundGroups = st.outboundGroups)
    (hinv : RegInv st) : RegInv st' := by
  have hsubl : List.Sublist (l₁ ++ l₂) st.inboundPeers := by
    rw [hsplit]
    exact (List.sublist_cons_self e l₂).append_left l₁
  have hsubk : List.Sublist ((l₁ ++ l₂).map Prod.fst) (st.inboundPeers.map Prod.fst) :=
    hsubl.map Prod.fst
  constructor
  · rw [h1]
    intro e' he'
    exact hinv.inKeys e' (hsubl.subset he')
  · rw [h2]; exact hinv.outKeys
  · rw [h3]; exact hinv.persKeys
  · rw [h1]; exact hinv.inNodup.sublist hsubk
  · rw [h2]; exact hinv.outNodup
  · rw [h3]; exact hinv.persNodup
  · intro k hk
    rw [h1] at hk
    rw [h2]
    refine hinv.disjIO k ?_
    rw [alistHasKey_iff_mem_keys] at hk ⊢
    exact hsubk.subset hk
  · intro k hk
    rw [h1] at hk
    rw [h3]
    refine hinv.disjIP k ?_
    rw [alistHasKey_iff_mem_keys] at hk ⊢
    exact hsubk.subset hk
  · intro k hk
    rw [h2] at hk
    rw [h3]
    exact hinv.disjOP k hk
  · intro g
    rw [h4]
    have hc : groupCount st' g = groupCount st g := by
      simp [groupCount, h2, h3]
    rw [hc]
    exact hinv.groups g

/-- Removing one registered outbound peer and decrementing its group counter
preserves the invariant. -/
theorem regInv_remove_mid_outbound (st st' : PeerState)
    (l₁ l₂ : List (Nat × Peer)) (e : Nat × Peer)
    (hsplit : st.outboundPeers = l₁ ++ e :: l₂)
    (h1 : st'.inboundPeers = st.inboundPeers)
    (h2 : st'.outboundPeers = l₁ ++ l₂)
    (h3 : st'.persistentPeers = st.persistentPeers)
    (h4 : st'.outboundGroups = bumpGroup st.outboundGroups e.2.group (-1))
    (hinv : RegInv st) : RegInv st' := by
  have hmem : e ∈ st.outboundPeers := by
    rw [hsplit]
    simp
  obtain ⟨hek, heib, hepers, hevk⟩ := hinv.outKeys e hmem
  have hsubl : List.Sublist (l₁ ++ l₂) st.outboundPeers := by
    rw [hsplit]
    exact (List.sublist_cons_self e l₂).append_left l₁
  have hsubk : List.Sublist ((l₁ ++ l₂).map Prod.fst) (st.outboundPeers.map Prod.fst) :=
    hsubl.map Prod.fst
  constructor
  · rw [h1]; exact hinv.inKeys
  · rw [h2]
    intro e' he'
    exact hinv.outKeys e' (hsubl.subset he')
  · rw [h3]; exact hinv.persKeys
  · rw [h1]; exact hinv.inNodup
  · rw [h2]; exact hinv.outNodup.sublist hsubk
  · rw [h3]; exact hinv.persNodup
  · intro k hk
    rw [h1] at hk
    rw [h2]
    rw [Bool.eq_false_iff]
    intro htrue
    have : alistHasKey st.outboundPeers k = true := by
      rw [alistHasKey_iff_mem_keys] at htrue ⊢
      exact hsubk.subset htrue
    have hfalse := hinv.disjIO k hk
    rw [hfalse] at this
    exact Bool.false_ne_true this
  · intro k hk
    rw [h1] at hk
    rw [h3]
    exact hinv.disjIP k hk
  · intro k hk
    rw [h2] at hk
    rw [h3]
    refine hinv.disjOP k ?_
    rw [alistHasKey_iff_mem_keys] at hk ⊢
    exact hsubk.subset hk
  · intro g
    rw [h4]
    have hcnt : groupCount st g = groupCount st' g +
        (if e.2.group = g ∧ e.2.versionKnown = true then 1 else 0) := by
      have h0 : st.outboundPeers ++ st.persistentPeers =
          l₁ ++ e :: (l₂ ++ st.persistentPeers) := by
        rw [hsplit]
        simp
      have h0' : st'.outboundPeers ++ st'.persistentPeers =
          l₁ ++ (l₂ ++ st.persistentPeers) := by
        rw [h2, h3]
        simp
      simp only [groupCount, h0, h0']
      rw [filter_length_remove_mid]
      simp
    unfold bumpGroup
    by_cases hg : g = e.2.group
    · subst hg
      rw [if_pos rfl, hinv.groups e.2.group]
      rw [hcnt]
      simp only [hevk, and_true, if_pos rfl]
      push_cast
      ring
    · rw [if_neg hg]
      have hng : ¬ (e.2.group = g ∧ e.2.versionKnown = true) := fun hh => hg hh.1.symm
      rw [hinv.groups g, hcnt]
      simp [hng]

/-- Removing one registered persistent peer and decrementing its group
counter preserves the invariant. -/
theorem regInv_remove_mid_persistent (st st' : PeerState)
    (l₁ l₂ : List (Nat × Peer)) (e : Nat × Peer)
    (hsplit : st.persistentPeers = l₁ ++ e :: l₂)
    (h1 : st'.inboundPeers = st.inboundPeers)
    (h2 : st'.outboundPeers = st.outboundPeers)
    (h3 : st'.persistentPeers = l₁ ++ l₂)
    (h4 : st'.outboundGroups = bumpGroup st.outboundGroups e.2.group (-1))
    (hinv : RegInv st) : RegInv st' := by
  have hmem : e ∈ st.persistentPeers := by
    rw [hsplit]
    simp
  obtain ⟨hek, heib, hepers, hevk⟩ := hinv.persKeys e hmem
  have hsubl : List.Sublist (l₁ ++ l₂) st.persistentPeers := by
    rw [hsplit]
    exact (List.sublist_cons_self e l₂).append_left l₁
  have hsubk : List.Sublist ((l₁ ++ l₂).map Prod.fst) (st.persistentPeers.map Prod.fst) :=
    hsubl.map Prod.fst
  constructor
  · rw [h1]; exact hinv.inKeys
  · rw [h2]; exact hinv.outKeys
  · rw [h3]
    intro e' he'
    exact hinv.persKeys e' (hsubl.subset he')
  · rw [h1]; exact hinv.inNodup
  · rw [h2]; exact hinv.outNodup
  · rw [h3]; exact hinv.persNodup.sublist hsubk
  · intro k hk
    rw [h1] at hk
    rw [h2]
    exact hinv.disjIO k hk
  · intro k hk
    rw [h1] at hk
    rw [h3]
    rw [Bool.eq_false_iff]
    intro htrue
    have : alistHasKey st.persistentPeers k = true := by
      rw [alistHasKey_iff_mem_keys] at htrue ⊢
      exact hsubk.subset htrue
    have hfalse := hinv.disjIP k hk
    rw [hfalse] at this
    exact Bool.false_ne_true this
  · intro k hk
    rw [h2] at hk
    rw [h3]
    rw [Bool.eq_false_iff]
    intro htrue
    have : alistHasKey st.persistentPeers k = true := by
      rw [alistHasKey_iff_mem_keys] at htrue ⊢
      exact hsubk.subset htrue
    have hfalse := hinv.disjOP k hk
    rw [hfalse] at this
    exact Bool.false_ne_true this
  · intro g
    rw [h4]
    have hcnt : groupCount st g = groupCount st' g +
        (if e.2.group = g ∧ e.2.versionKnown = true then 1 else 0) := by
      have h0 : st.outboundPeers ++ st.persistentPeers =
          (st.outboundPeers ++ l₁) ++ e :: l₂ := by
        rw [hsplit]
        simp
      have h0' : st'.outboundPeers ++ st'.persistentPeers =
          (st.outboundPeers ++ l₁) ++ l₂ := by
        rw [h2, h3]
        simp
      simp only [groupCount, h0, h0']
      rw [filter_length_remove_mid]
      simp
    unfold bumpGroup
    by_cases hg : g = e.2.group
    · subst hg
      rw [if_pos rfl, hinv.groups e.2.group]
      rw [hcnt]
      simp only [hevk, and_true, if_pos rfl]
      push_cast
      ring
    · rw [if_neg hg]
      have hng : ¬ (e.2.group = g ∧ e.2.versionKnown = true) := fun hh => hg hh.1.symm
      rw [hinv.groups g, hcnt]
      simp [hng]

/-- Admission preserves the registry invariant for any version-negotiated
peer with a fresh id. -/
theorem regInv_admit (cfg : ServerCfg) (st : PeerState) (am : AddrMgr) (sp : Peer)
    (hinv : RegInv st) (hvk : sp.versionKnown = true) (hfresh : idFresh st sp.pid) :
    RegInv (handleAddPeerAdmit cfg st am sp).state := by
  simp only [handleAddPeerAdmit]
  split_ifs with h1 h2 h3 h4
  · exact hinv
  · exact hinv
  · exact regInv_insert_inbound st _ sp hinv hvk (by simpa using h3) hfresh
      rfl rfl rfl rfl
  · obtain ⟨d1, d2, d3, d4⟩ := discoverLocalAddress_registry cfg
      { st with
          outboundGroups := bumpGroup st.outboundGroups sp.group 1,
          persistentPeers := alistInsert st.persistentPeers sp.pid sp } am sp
    exact regInv_of_fields d1 d2 d3 d4
      (regInv_insert_persistent st _ sp hinv hvk
        (by simpa using h3) (by simpa using h4) hfresh rfl rfl rfl rfl)
  · obtain ⟨d1, d2, d3, d4⟩ := discoverLocalAddress_registry cfg
      { st with
          outboundGroups := bumpGroup st.outboundGroups sp.group 1,
          outboundPeers := alistInsert st.outboundPeers sp.pid sp } am sp
    exact regInv_of_fields d1 d2 d3 d4
      (regInv_insert_outbound st _ sp hinv hvk
        (by simpa using h3) (by simpa using h4) hfresh rfl rfl rfl rfl)

/-- The add-peer handler preserves the registry invariant. -/
theorem regInv_addPeer (cfg : ServerCfg) (now : Nat) (st : PeerState)
    (am : AddrMgr) (sp : Peer) (hinv : RegInv st) (hvk : sp.versionKnown = true)
    (hfresh : idFresh st sp.pid) :
    RegInv (handleAddPeerMsg cfg now st am sp).state := by
  unfold handleAddPeerMsg
  by_cases hs : cfg.shutdown
  · simp only [hs, if_true]
    exact hinv
  · simp only [hs, if_false, Bool.false_eq_true]
    cases hh : sp.host with
    | none => exact hinv
    | some host =>
        dsimp only
        cases hb : alistLookup st.banned host with
        | none =>
            dsimp only
            exact regInv_admit cfg st am sp hinv hvk hfresh
        | some banEnd =>
            dsimp only
            by_cases ht : now < banEnd
            · simp only [ht, if_true]
              exact hinv
            · simp only [ht, if_false]
              exact regInv_admit cfg _ am sp
                (@regInv_of_fields st _ rfl rfl rfl rfl hinv) hvk hfresh

/-- The done-peer handler preserves the registry invariant when the event
carries the registered peer value. -/
theorem regInv_done (st : PeerState) (sp : Peer) (hinv : RegInv st)
    (hval : ∀ q, alistLookup (ownList st sp) sp.pid = some q → q = sp) :
    RegInv (handleDonePeerMsg st sp) := by
  unfold handleDonePeerMsg
  by_cases hpers : sp.persistent
  · simp only [hpers, if_true]
    by_cases hk : alistHasKey st.persistentPeers sp.pid
    · simp only [hk, if_true]
      obtain ⟨q, hq0⟩ := Option.isSome_iff_exists.mp hk
      have hq : alistLookup st.persistentPeers sp.pid = some sp := by
        rw [hval q (by simpa [ownList, hpers] using hq0)] at hq0
        exact hq0
      have hmem := alistLookup_mem hq
      obtain ⟨_, hib, _, hvkq⟩ := hinv.persKeys _ hmem
      obtain ⟨l₁, l₂, hsplit, herase⟩ := alistErase_decomp hinv.persNodup hq
      refine regInv_remove_mid_persistent st _ l₁ l₂ (sp.pid, sp) hsplit rfl rfl
        (by simpa using herase) ?_ hinv
      simp only at hib hvkq ⊢
      simp [hib, hvkq]
    · simp only [hk, if_false, Bool.false_eq_true]
      exact hinv
  · simp only [hpers, if_false, Bool.false_eq_true]
    by_cases hinb : sp.inbound
    · simp only [hinb, if_true]
      by_cases hk : alistHasKey st.inboundPeers sp.pid
      · simp only [hk, if_true]
        obtain ⟨q, hq0⟩ := Option.isSome_iff_exists.mp hk
        have hq : alistLookup st.inboundPeers sp.pid = some sp := by
          rw [hval q (by simpa [ownList, hpers, hinb] using hq0)] at hq0
          exact hq0
        obtain ⟨l₁, l₂, hsplit, herase⟩ := alistErase_decomp hinv.inNodup hq
        refine regInv_remove_mid_inbound st _ l₁ l₂ (sp.pid, sp) hsplit
          (by simpa using herase) rfl rfl ?_ hinv
        simp [hinb]
      · simp only [hk, if_false, Bool.false_eq_true]
        exact hinv
    · simp only [hinb, if_false, Bool.false_eq_true]
      by_cases hk : alistHasKey st.outboundPeers sp.pid
      · simp only [hk, if_true]
        obtain ⟨q, hq0⟩ := Option.isSome_iff_exists.mp hk
        have hq : alistLookup st.outboundPeers sp.pid = some sp := by
          rw [hval q (by simpa [ownList, hpers, hinb] using hq0)] at hq0
          exact hq0
        have hmem := alistLookup_mem hq
        obtain ⟨_, hib, _, hvkq⟩ := hinv.outKeys _ hmem
        obtain ⟨l₁, l₂, hsplit, herase⟩ := alistErase_decomp hinv.outNodup hq
        refine regInv_remove_mid_outbound st _ l₁ l₂ (sp.pid, sp) hsplit rfl
          (by simpa using herase) rfl ?_ hinv
        simp only at hib hvkq ⊢
        simp [hib, hvkq]
      · simp only [hk, if_false, Bool.false_eq_true]
        exact hinv

/-- The ban handler never touches the registry maps or counters. -/
theorem regInv_ban (cfg : ServerCfg) (now : Nat) (st : PeerState) (sp : Peer)
    (hinv : RegInv st) : RegInv (handleBanPeerMsg cfg now st sp) := by
  unfold handleBanPeerMsg
  cases sp.host with
  | none => exact hinv
  | some host =>
      dsimp only
      exact @regInv_of_fields st _ rfl rfl rfl rfl hinv

/-- The remove-node query preserves the registry invariant. -/
theorem regInv_removeNode (st : PeerState) (cmp : Peer → Bool)
    (hinv : RegInv st) : RegInv (handleRemoveNodeQuery st cmp) := by
  unfold handleRemoveNodeQuery
  rcases hres : disconnectPeerA st.persistentPeers cmp with ⟨found, rest⟩
  cases found with
  | none =>
      dsimp only
      exact hinv
  | some e =>
      dsimp only
      obtain ⟨l₁, l₂, hsplit, hrest⟩ := disconnectPeerA_found hres
      exact regInv_remove_mid_persistent st _ l₁ l₂ e hsplit rfl rfl
        (by simpa using hrest) rfl hinv

/-- The repeat-removal loop over the outbound map preserves the registry
invariant. -/
theorem regInv_disconnectAll (cmp : Peer → Bool) :
    ∀ (fuel : Nat) (st : PeerState), RegInv st →
      RegInv (disconnectAllOutbound cmp fuel st) := by
  intro fuel
  induction fuel with
  | zero =>
      intro st hinv
      simpa [disconnectAllOutbound] using hinv
  | succ n ih =>
      intro st hinv
      rw [disconnectAllOutbound]
      rcases hres : disconnectPeerA st.outboundPeers cmp with ⟨found, rest⟩
      cases found with
      | none =>
          dsimp only
          exact hinv
      | some e =>
          dsimp only
          obtain ⟨l₁, l₂, hsplit, hrest⟩ := disconnectPeerA_found hres
          exact ih _ (regInv_remove_mid_outbound st _ l₁ l₂ e hsplit rfl
            (by simpa using hrest) rfl rfl hinv)

/-- The disconnect-node query preserves the registry invariant. -/
theorem regInv_disconnectNode (st : PeerState) (cmp : Peer → Bool)
    (hinv : RegInv st) : RegInv (handleDisconnectNodeQuery st cmp) := by
  unfold handleDisconnectNodeQuery
  rcases hres : disconnectPeerA st.inboundPeers cmp with ⟨found, rest⟩
  cases found with
  | none =>
      dsimp only
      exact regInv_disconnectAll cmp st.outboundPeers.length st hinv
  | some e =>
      dsimp only
      obtain ⟨l₁, l₂, hsplit, hrest⟩ := disconnectPeerA_found hres
      exact regInv_remove_mid_inbound st _ l₁ l₂ e hsplit
        (by simpa using hrest) rfl rfl rfl hinv

/-- One event-loop dispatch preserves the registry invariant. -/
theorem regInv_step (cfg : ServerCfg) (s : PeerState × AddrMgr) (e : SEvent)
    (hinv : RegInv s.1) (hval : ValidEvent s.1 e) :
    RegInv (stepEvent cfg s e).1 := by
  cases e with
  | addPeer now sp => exact regInv_addPeer cfg now s.1 s.2 sp hinv hval.1 hval.2
  | donePeer sp => exact regInv_done s.1 sp hinv hval
  | banPeer now sp => exact regInv_ban cfg now s.1 sp hinv
  | queryRemoveNode cmp => exact regInv_removeNode s.1 cmp hinv
  | queryDisconnectNode cmp => exact regInv_disconnectNode s.1 cmp hinv
  | queryReadOnly => exact hinv

/-- The freshly constructed peer state satisfies the registry invariant. -/
theorem regInv_initial : RegInv initialPeerState := by
  constructor <;> intros <;>
    simp_all [initialPeerState, alistHasKey, alistLookup, groupCount]

/-- Every reachable state satisfies the registry invariant. -/
theorem reachable_regInv (cfg : ServerCfg) (s : PeerState × AddrMgr)
    (h : Reachable cfg s) : RegInv s.1 := by
  induction h with
  | init am => exact regInv_initial
  | @step s' e hr hv ih => exact regInv_step cfg s' e ih hv

/-! ## Claims C8 and C9: registry invariants of the event loop -/

/-- C8: in every state reachable by any sequence of add-peer, done-peer,
ban-peer, and query events, each outbound-group counter equals the number of
peers in the union of the outbound and persistent registry maps whose address
belongs to that group and that have completed version negotiation. -/
theorem c8_outbound_groups (cfg : ServerCfg) (s : PeerState × AddrMgr)
    (h : Reachable cfg s) (g : String) :
    s.1.outboundGroups g = (groupCount s.1 g : Int) :=
  (reachable_regInv cfg s h).groups g

/-- C8 witness: after admitting one version-negotiated outbound peer of group
g16, the counter for g16 equals the census and is 1. -/
theorem c8_witness :
    c89State.1.outboundGroups "g16" = (groupCount c89State.1 "g16" : Int) ∧
    groupCount c89State.1 "g16" = 1 := by
  constructor
  · exact c8_outbound_groups c89Cfg c89State
      (Reachable.step (SEvent.addPeer 0 c89Peer) (Reachable.init c89Am)
        ⟨rfl, rfl, rfl, rfl⟩) "g16"
  · decide

/-- C9: in every state reachable by any interleaving of add-peer, done-peer,
ban-peer, and query events, each peer id appears in at most one of the three
registry maps, and `Count()` equals the sum of the sizes of the three maps. -/
theorem c9_registry_disjoint_count (cfg : ServerCfg) (s : PeerState × AddrMgr)
    (h : Reachable cfg s) :
    (∀ k, (alistHasKey s.1.inboundPeers k = true →
        alistHasKey s.1.outboundPeers k = false ∧
          alistHasKey s.1.persistentPeers k = false) ∧
      (alistHasKey s.1.outboundPeers k = true →
        alistHasKey s.1.persistentPeers k = false)) ∧
    psCount s.1 = s.1.inboundPeers.length + s.1.outboundPeers.length +
      s.1.persistentPeers.length := by
  have hinv := reachable_regInv cfg s h
  exact ⟨fun k => ⟨fun hk => ⟨hinv.disjIO k hk, hinv.disjIP k hk⟩, hinv.disjOP k⟩,
    rfl⟩

/-- C9 witness: in the reachable one-peer state, id 1 lies only in the
outbound map and the count is the sum of the map sizes. -/
theorem c9_witness :
    (alistHasKey c89State.1.inboundPeers 1 = true →
      alistHasKey c89State.1.outboundPeers 1 = false ∧
        alistHasKey c89State.1.persistentPeers 1 = false) ∧
    psCount c89State.1 = c89State.1.inboundPeers.length +
      c89State.1.outboundPeers.length + c89State.1.persistentPeers.length := by
  have h := c9_registry_disjoint_count c89Cfg c89State
    (Reachable.step (SEvent.addPeer 0 c89Peer) (Reachable.init c89Am)
      ⟨rfl, rfl, rfl, rfl⟩)
  exact ⟨(h.1 1).1, h.2⟩

/-! ## Getdata-loop lemmas (claim C2) -/

/-- The transaction push fails exactly on a mempool miss. -/
theorem pushTxMsg_err (env : GDEnv) (h : Nat) (c w : Option Nat) :
    (pushTxMsg env h c w).1 = ! env.mempoolHasTx h := by
  unfold pushTxMsg
  by_cases hm : env.mempoolHasTx h
  · simp [hm]
  · cases c <;> simp [hm]

/-- The block push fails exactly on a chain miss. -/
theorem pushBlockMsg_err (env : GDEnv) (ch : Option Nat) (h : Nat)
    (c w : Option Nat) :
    (pushBlockMsg env ch h c w).1 = ! env.chainHasBlock h := by
  unfold pushBlockMsg
  by_cases hb : env.chainHasBlock h
  · by_cases hs : ch = some h <;> simp [hb, hs]
  · cases c <;> simp [hb]

/-- The per-item tail leaves the index unchanged. -/
theorem gdFinishItem_idx (total i : Nat) (c : Option Nat) (iv : GDInv)
    (err : Bool) (st' : GDState) :
    (gdFinishItem total i c iv err st').idx = st'.idx := by
  unfold gdFinishItem
  cases err
  · simp
  · cases c with
    | none => simp
    | some ch => by_cases hi : i = total - 1 <;> simp [hi]

/-- The per-item tail leaves the channel choices unchanged. -/
theorem gdFinishItem_assigns (total i : Nat) (c : Option Nat) (iv : GDInv)
    (err : Bool) (st' : GDState) :
    (gdFinishItem total i c iv err st').assigns = st'.assigns := by
  unfold gdFinishItem
  cases err
  · simp
  · cases c with
    | none => simp
    | some ch => by_cases hi : i = total - 1 <;> simp [hi]

/-- The per-item tail leaves the channel allocator unchanged. -/
theorem gdFinishItem_nextChan (total i : Nat) (c : Option Nat) (iv : GDInv)
    (err : Bool) (st' : GDState) :
    (gdFinishItem total i c iv err st').nextChan = st'.nextChan := by
  unfold gdFinishItem
  cases err
  · simp
  · cases c with
    | none => simp
    | some ch => by_cases hi : i = total - 1 <;> simp [hi]

/-- The per-item tail advances `numAdded` by one. -/
theorem gdFinishItem_numAdded (total i : Nat) (c : Option Nat) (iv : GDInv)
    (err : Bool) (st' : GDState) :
    (gdFinishItem total i c iv err st').numAdded = st'.numAdded + 1 := by
  unfold gdFinishItem
  cases err
  · simp
  · cases c with
    | none => simp
    | some ch => by_cases hi : i = total - 1 <;> simp [hi]

/-- The per-item tail appends the item to `notFound` exactly on an error. -/
theorem gdFinishItem_notFound (total i : Nat) (c : Option Nat) (iv : GDInv)
    (err : Bool) (st' : GDState) :
    (gdFinishItem total i c iv err st').notFound =
      st'.notFound ++ (if err = true then [iv] else []) := by
  unfold gdFinishItem
  cases err
  · simp
  · cases c with
    | none => simp
    | some ch => by_cases hi : i = total - 1 <;> simp [hi]

/-- The per-item tail only appends to the trace. -/
theorem gdFinishItem_events (total i : Nat) (c : Option Nat) (iv : GDInv)
    (err : Bool) (st' : GDState) :
    ∃ evs, (gdFinishItem total i c iv err st').events = st'.events ++ evs := by
  unfold gdFinishItem
  cases err
  · exact ⟨[], by simp⟩
  · cases c with
    | none => exact ⟨[], by simp⟩
    | some ch =>
        by_cases hi : i = total - 1
        · exact ⟨[GDEvent.chanRecv ch], by simp [hi]⟩
        · exact ⟨[], by simp [hi]⟩

/-- One loop iteration advances the index. -/
theorem gdStep_idx (env : GDEnv) (total : Nat) (st : GDState) (iv : GDInv) :
    (gdStep env total st iv).idx = st.idx + 1 := by
  unfold gdStep
  cases hty : iv.invType <;> simp [gdFinishItem_idx]

/-- One loop iteration appends exactly the `assignOf` channel choice. -/
theorem gdStep_assigns (env : GDEnv) (total : Nat) (st : GDState) (iv : GDInv) :
    (gdStep env total st iv).assigns =
      st.assigns ++ [assignOf total st.idx st.notFound st.nextChan] := by
  unfold gdStep
  cases hty : iv.invType <;> simp [gdFinishItem_assigns]

/-- One loop iteration bumps the allocator exactly when a fresh channel was
chosen. -/
theorem gdStep_nextChan (env : GDEnv) (total : Nat) (st : GDState) (iv : GDInv) :
    (gdStep env total st iv).nextChan =
      (if ¬ (st.idx = total - 1 ∧ st.notFound = []) ∧ (st.idx + 1) % 3 = 0 then
        st.nextChan + 1 else st.nextChan) := by
  unfold gdStep
  cases hty : iv.invType <;> simp [gdFinishItem_nextChan] <;>
    exact if_congr (by tauto) rfl rfl

/-- One loop iteration appends the item to `notFound` exactly when its fetch
misses. -/
theorem gdStep_notFound (env : GDEnv) (total : Nat) (st : GDState) (iv : GDInv) :
    (gdStep env total st iv).notFound =
      st.notFound ++ (if isMiss env iv = true then [iv] else []) := by
  unfold gdStep
  cases hty : iv.invType
  · simp [gdFinishItem_notFound, pushTxMsg_err, isMiss, hty]
  · simp [gdFinishItem_notFound, pushBlockMsg_err, isMiss, hty]
  · simp [isMiss, hty]

/-- One loop iteration advances `numAdded` exactly on a known item type. -/
theorem gdStep_numAdded (env : GDEnv) (total : Nat) (st : GDState) (iv : GDInv) :
    (gdStep env total st iv).numAdded =
      st.numAdded + (if isKnownType iv = true then 1 else 0) := by
  unfold gdStep
  cases hty : iv.invType
  · simp [gdFinishItem_numAdded, isKnownType, hty]
  · simp [gdFinishItem_numAdded, isKnownType, hty]
  · simp [isKnownType, hty]

/-- One loop iteration only appends to the trace. -/
theorem gdStep_events (env : GDEnv) (total : Nat) (st : GDState) (iv : GDInv) :
    ∃ evs, (gdStep env total st iv).events = st.events ++ evs := by
  unfold gdStep
  cases hty : iv.invType
  · obtain ⟨evs, hevs⟩ := gdFinishItem_events total st.idx
      (assignOf total st.idx st.notFound st.nextChan) iv
      (pushTxMsg env iv.hash (assignOf total st.idx st.notFound st.nextChan)
        st.waitChan).1
      _
    refine ⟨(pushTxMsg env iv.hash (assignOf total st.idx st.notFound st.nextChan)
        st.waitChan).2 ++ evs, ?_⟩
    simp only
    rw [hevs]
    simp
  · obtain ⟨evs, hevs⟩ := gdFinishItem_events total st.idx
      (assignOf total st.idx st.notFound st.nextChan) iv
      (pushBlockMsg env st.continueHash iv.hash
        (assignOf total st.idx st.notFound st.nextChan) st.waitChan).1
      _
    refine ⟨(pushBlockMsg env st.continueHash iv.hash
        (assignOf total st.idx st.notFound st.nextChan) st.waitChan).2.2 ++ evs, ?_⟩
    simp only
    rw [hevs]
    simp
  · exact ⟨[], by simp⟩

/-- The post-loop tail leaves the channel choices unchanged. -/
theorem gdPost_assigns (st : GDState) : (gdPost st).assigns = st.assigns := by
  unfold gdPost
  by_cases h1 : st.notFound = [] <;> by_cases h2 : 0 < st.numAdded <;>
    simp [h1, h2]

/-- The post-loop tail leaves the `notFound` accumulator unchanged. -/
theorem gdPost_notFound (st : GDState) : (gdPost st).notFound = st.notFound := by
  unfold gdPost
  by_cases h1 : st.notFound = [] <;> by_cases h2 : 0 < st.numAdded <;>
    simp [h1, h2]

/-- The post-loop tail leaves `numAdded` unchanged. -/
theorem gdPost_numAdded (st : GDState) : (gdPost st).numAdded = st.numAdded := by
  unfold gdPost
  by_cases h1 : st.notFound = [] <;> by_cases h2 : 0 < st.numAdded <;>
    simp [h1, h2]

/-- The post-loop tail appends the `notFound` enqueue (when non-empty) and
then the final done-channel receive (when an item was handled). -/
theorem gdPost_events (st : GDState) :
    (gdPost st).events =
      (st.events ++
        (if st.notFound = [] then []
          else [GDEvent.queueMsg (GDPayload.notFoundMsg st.notFound) (some 0)])) ++
      (if 0 < st.numAdded then [GDEvent.chanRecv 0] else []) := by
  unfold gdPost
  by_cases h1 : st.notFound = [] <;> by_cases h2 : 0 < st.numAdded <;>
    simp [h1, h2]

/-- One loop iteration preserves the loop invariant, extending the processed
prefix. -/
theorem gdStep_inv (env : GDEnv) (n : Nat) (pre : List GDInv) (st : GDState)
    (iv : GDInv) (hinv : GDLoopInv env n pre st) :
    GDLoopInv env n (pre ++ [iv]) (gdStep env n st iv) := by
  have hidx := gdStep_idx env n st iv
  have hass := gdStep_assigns env n st iv
  have hnf := gdStep_notFound env n st iv
  have hnum := gdStep_numAdded env n st iv
  have hnext := gdStep_nextChan env n st iv
  have halen : st.assigns.length = pre.length := hinv.alen
  have hnext_mono : st.nextChan ≤ (gdStep env n st iv).nextChan := by
    rw [hnext]
    split_ifs <;> omega
  have hnextPos := hinv.nextPos
  set a := assignOf n st.idx st.notFound st.nextChan with ha
  have hget_old : ∀ i, i < pre.length →
      (gdStep env n st iv).assigns[i]? = st.assigns[i]? := by
    intro i hi
    rw [hass]
    exact List.getElem?_append_left (by omega)
  have hget_new : (gdStep env n st iv).assigns[pre.length]? = some a := by
    rw [hass, ← halen]
    exact List.getElem?_concat_length _ _
  have hget_none : ∀ i, pre.length + 1 ≤ i →
      (gdStep env n st iv).assigns[i]? = none := by
    intro i hi
    rw [hass]
    apply List.getElem?_eq_none
    simp only [List.length_append, List.length_singleton, halen]
    omega
  have hAiff : (st.idx = n - 1 ∧ st.notFound = []) ↔
      (pre.length = n - 1 ∧ pre.filter (isMiss env) = []) := by
    rw [hinv.idx, hinv.notFound]
  constructor
  · rw [hidx, hinv.idx]
    simp
  · rw [hnf, hinv.notFound, List.filter_append]
    by_cases hm : isMiss env iv <;> simp [hm]
  · rw [hnum, hinv.numAdded, List.filter_append]
    by_cases hk : isKnownType iv <;> simp [hk]
  · rw [hass]
    simp [halen]
  · omega
  · intro i c hget
    by_cases hi : i < pre.length
    · rw [hget_old i hi] at hget
      exact lt_of_lt_of_le (hinv.bound i c hget) hnext_mono
    · by_cases hieq : i = pre.length
      · subst hieq
        rw [hget_new] at hget
        have hac : a = some c := Option.some.inj hget
        rw [ha] at hac
        unfold assignOf at hac
        by_cases hA : (st.idx = n - 1 ∧ st.notFound = [])
        · rw [if_pos hA] at hac
          have hc0 : (0 : Nat) = c := Option.some.inj hac
          omega
        · rw [if_neg hA] at hac
          by_cases h3 : (st.idx + 1) % 3 = 0
          · rw [if_pos h3] at hac
            have hcn : st.nextChan = c := Option.some.inj hac
            rw [hnext, if_pos ⟨hA, h3⟩]
            omega
          · rw [if_neg h3] at hac
            exact absurd hac (by simp)
      · rw [hget_none i (by omega)] at hget
        exact absurd hget (by simp)
  · intro i hi
    rw [List.length_append, List.length_singleton] at hi
    by_cases hiold : i < pre.length
    · rw [hget_old i hiold,
        List.take_append_of_le_length (le_of_lt hiold)]
      exact hinv.doneIff i hiold
    · have hieq : i = pre.length := by omega
      subst hieq
      rw [hget_new, List.take_left pre [iv]]
      constructor
      · intro hsome
        have hac : a = some 0 := Option.some.inj hsome
        rw [ha] at hac
        unfold assignOf at hac
        by_cases hA : (st.idx = n - 1 ∧ st.notFound = [])
        · exact hAiff.mp hA
        · rw [if_neg hA] at hac
          by_cases h3 : (st.idx + 1) % 3 = 0
          · rw [if_pos h3] at hac
            have := Option.some.inj hac
            omega
          · rw [if_neg h3] at hac
            exact absurd hac (by simp)
      · intro hcond
        have hA : st.idx = n - 1 ∧ st.notFound = [] := hAiff.mpr hcond
        rw [ha]
        unfold assignOf
        rw [if_pos hA]
  · intro i hi hncond
    rw [List.length_append, List.length_singleton] at hi
    by_cases hiold : i < pre.length
    · rw [List.take_append_of_le_length (le_of_lt hiold)] at hncond
      obtain ⟨hf1, hf2⟩ := hinv.freshSpec i hiold hncond
      constructor
      · intro h3
        obtain ⟨c, hc, hc1⟩ := hf1 h3
        refine ⟨c, ?_, hc1⟩
        rw [hget_old i hiold]
        exact hc
      · intro h3
        rw [hget_old i hiold]
        exact hf2 h3
    · have hieq : i = pre.length := by omega
      subst hieq
      rw [List.take_left pre [iv]] at hncond
      have hA : ¬ (st.idx = n - 1 ∧ st.notFound = []) :=
        fun h => hncond (hAiff.mp h)
      constructor
      · intro h3
        refine ⟨st.nextChan, ?_, hinv.nextPos⟩
        rw [hget_new, ha]
        unfold assignOf
        rw [if_neg hA, if_pos (by rw [hinv.idx]; exact h3)]
      · intro h3
        rw [hget_new, ha]
        unfold assignOf
        rw [if_neg hA, if_neg (by rw [hinv.idx]; exact h3)]
  · intro i j hij ci cj hgi hgj hci hcj
    by_cases hjold : j < pre.length
    · have hiold : i < pre.length := by omega
      rw [hget_old i hiold] at hgi
      rw [hget_old j hjold] at hgj
      exact hinv.mono i j hij ci cj hgi hgj hci hcj
    · by_cases hjeq : j = pre.length
      · subst hjeq
        have hiold : i < pre.length := by omega
        rw [hget_old i hiold] at hgi
        rw [hget_new] at hgj
        have hacj : a = some cj := Option.some.inj hgj
        rw [ha] at hacj
        unfold assignOf at hacj
        by_cases hA : (st.idx = n - 1 ∧ st.notFound = [])
        · rw [if_pos hA] at hacj
          have : (0 : Nat) = cj := Option.some.inj hacj
          omega
        · rw [if_neg hA] at hacj
          by_cases h3 : (st.idx + 1) % 3 = 0
          · rw [if_pos h3] at hacj
            have hcn : st.nextChan = cj := Option.some.inj hacj
            have := hinv.bound i ci hgi
            omega
          · rw [if_neg h3] at hacj
            exact absurd hacj (by simp)
      · rw [hget_none j (by omega)] at hgj
        exact absurd hgj (by simp)

/-- The loop invariant holds before the first iteration. -/
theorem gdLoopInv_nil (env : GDEnv) (n : Nat) (st : GDState)
    (h1 : st.idx = 0) (h2 : st.notFound = []) (h3 : st.numAdded = 0)
    (h4 : st.assigns = []) (h5 : st.nextChan = 1) :
    GDLoopInv env n [] st := by
  constructor
  · simpa using h1
  · simpa using h2
  · simpa using h3
  · simpa using h4
  · omega
  · intro i c hget
    rw [h4] at hget
    simp at hget
  · intro i hi
    simp at hi
  · intro i hi
    simp at hi
  · intro i j hij ci cj hgi hgj hci hcj
    rw [h4] at hgi
    simp at hgi

/-- Folding the loop over a suffix extends the invariant's prefix. -/
theorem gdLoop_inv (env : GDEnv) (n : Nat) :
    ∀ (l pre : List GDInv) (st : GDState), GDLoopInv env n pre st →
      GDLoopInv env n (pre ++ l) (l.foldl (gdStep env n) st) := by
  intro l
  induction l with
  | nil =>
      intro pre st h
      simpa using h
  | cons x rest ih =>
      intro pre st h
      have h1 := gdStep_inv env n pre st x h
      have h2 := ih (pre ++ [x]) (gdStep env n st x) h1
      simpa using h2

/-- When the final item misses and carries a channel, the loop consumes that
channel during its last iteration. -/
theorem gdStep_lastMiss_recv (env : GDEnv) (n : Nat) (st : GDState) (iv : GDInv)
    (c : Nat) (hmiss : isMiss env iv = true) (hidx : st.idx = n - 1)
    (hc : assignOf n st.idx st.notFound st.nextChan = some c) :
    GDEvent.chanRecv c ∈ (gdStep env n st iv).events := by
  unfold gdStep
  cases hty : iv.invType
  case unknown =>
      rw [isMiss, hty] at hmiss
      simp at hmiss
  case tx =>
      dsimp only
      rw [hc]
      have herr : (pushTxMsg env iv.hash (some c) st.waitChan).1 = true := by
        rw [pushTxMsg_err]
        rw [isMiss, hty] at hmiss
        exact hmiss
      rw [herr]
      unfold gdFinishItem
      simp [hidx]
  case block =>
      dsimp only
      rw [hc]
      have herr : (pushBlockMsg env st.continueHash iv.hash (some c)
          st.waitChan).1 = true := by
        rw [pushBlockMsg_err]
        rw [isMiss, hty] at hmiss
        exact hmiss
      rw [herr]
      unfold gdFinishItem
      simp [hidx]

/-- C2: for every non-empty getdata request, `OnGetData` chooses completion
channels exactly as specified — one choice is recorded per item; the done
channel (0) goes to an item iff it is the last one and no earlier item missed;
every other third item (1-based index divisible by 3) gets a fresh nonzero
one-slot channel, all remaining items get none; no channel is shared between
two items; if the final item is a miss and a channel was allocated to it, that
channel is consumed (received from) strictly before the not-found message is
enqueued with the done channel; a non-empty not-found reply is enqueued last
(no message enqueue follows it); and `numAdded` counts the handled items, with
the callback ending on a receive from the done channel whenever it is
positive. -/
theorem c2_getdata_channels (env : GDEnv) (ch0 : Option Nat)
    (invList : List GDInv) (hne : invList ≠ []) :
    (onGetData env ch0 invList).assigns.length = invList.length ∧
    (∀ (i : Nat), i < invList.length →
      (((onGetData env ch0 invList).assigns[i]? = some (some 0) ↔
        (i = invList.length - 1 ∧ (invList.take i).filter (isMiss env) = [])) ∧
      (¬ (i = invList.length - 1 ∧ (invList.take i).filter (isMiss env) = []) →
        (((i + 1) % 3 = 0 →
            ∃ c, (onGetData env ch0 invList).assigns[i]? = some (some c) ∧
              1 ≤ c) ∧
          ((i + 1) % 3 ≠ 0 →
            (onGetData env ch0 invList).assigns[i]? = some none))))) ∧
    (∀ (i j : Nat), i ≠ j → ∀ (c : Nat),
      (onGetData env ch0 invList).assigns[i]? = some (some c) →
      (onGetData env ch0 invList).assigns[j]? = some (some c) → False) ∧
    (isMiss env (invList.getLast hne) = true →
      ∀ (c : Nat),
        (onGetData env ch0 invList).assigns[invList.length - 1]? =
          some (some c) →
        ∃ l₁ l₂, (onGetData env ch0 invList).events =
            l₁ ++ GDEvent.queueMsg
              (GDPayload.notFoundMsg (onGetData env ch0 invList).notFound)
              (some 0) :: l₂ ∧
          GDEvent.chanRecv c ∈ l₁) ∧
    ((onGetData env ch0 invList).notFound ≠ [] →
      ∃ l₁ l₂, (onGetData env ch0 invList).events =
          l₁ ++ GDEvent.queueMsg
            (GDPayload.notFoundMsg (onGetData env ch0 invList).notFound)
            (some 0) :: l₂ ∧
        ∀ ev ∈ l₂, ∀ (p : GDPayload) (dc : Option Nat),
          ev ≠ GDEvent.queueMsg p dc) ∧
    ((onGetData env ch0 invList).numAdded =
        (invList.filter isKnownType).length ∧
      (0 < (onGetData env ch0 invList).numAdded →
        ∃ l', (onGetData env ch0 invList).events =
          l' ++ [GDEvent.chanRecv 0])) := by
  obtain ⟨st0, hst0i, hst0f, hst0n, hst0a, hst0c, hog⟩ :
      ∃ st0 : GDState, st0.idx = 0 ∧ st0.notFound = [] ∧ st0.numAdded = 0 ∧
        st0.assigns = [] ∧ st0.nextChan = 1 ∧
        onGetData env ch0 invList =
          gdPost (invList.foldl (gdStep env invList.length) st0) := by
    refine ⟨{ idx := 0, notFound := [], numAdded := 0, waitChan := none
              nextChan := 1, continueHash := ch0
              events := [GDEvent.banScore 0 (invList.length * 99 / maxInvPerMsg)]
              assigns := [] }, rfl, rfl, rfl, rfl, rfl, ?_⟩
    unfold onGetData
    rw [if_neg hne]
  set stF := invList.foldl (gdStep env invList.length) st0 with hstF
  have hInv : GDLoopInv env invList.length invList stF := by
    have h0 := gdLoopInv_nil env invList.length st0 hst0i hst0f hst0n hst0a hst0c
    have h := gdLoop_inv env invList.length invList [] st0 h0
    rw [← hstF] at h
    simpa using h
  have hres_assigns : (onGetData env ch0 invList).assigns = stF.assigns := by
    rw [hog]; exact gdPost_assigns stF
  have hres_notFound : (onGetData env ch0 invList).notFound = stF.notFound := by
    rw [hog]; exact gdPost_notFound stF
  have hres_numAdded : (onGetData env ch0 invList).numAdded = stF.numAdded := by
    rw [hog]; exact gdPost_numAdded stF
  have hres_events : (onGetData env ch0 invList).events =
      (stF.events ++
        (if stF.notFound = [] then []
          else [GDEvent.queueMsg (GDPayload.notFoundMsg stF.notFound)
            (some 0)])) ++
      (if 0 < stF.numAdded then [GDEvent.chanRecv 0] else []) := by
    rw [hog]; exact gdPost_events stF
  have hlt_of_get : ∀ (i : Nat) (o : Option Nat), stF.assigns[i]? = some o →
      i < invList.length := by
    intro i o hgo
    have hlen : i < stF.assigns.length := by
      by_contra hcon
      rw [List.getElem?_eq_none (Nat.le_of_not_lt hcon)] at hgo
      simp at hgo
    rw [hInv.alen] at hlen
    exact hlen
  refine ⟨?_, ?_, ?_, ?_, ?_, ?_⟩
  · rw [hres_assigns, hInv.alen]
  · intro i hi
    rw [hres_assigns]
    exact ⟨hInv.doneIff i hi, hInv.freshSpec i hi⟩
  · intro i j hij c hgi hgj
    rw [hres_assigns] at hgi hgj
    have hi : i < invList.length := hlt_of_get i (some c) hgi
    have hj : j < invList.length := hlt_of_get j (some c) hgj
    have key : ∀ (a b : Nat), a < b → stF.assigns[a]? = some (some c) →
        stF.assigns[b]? = some (some c) → a < invList.length →
        b < invList.length → False := by
      intro a b hab hga hgb ha hb
      by_cases hc0 : c = 0
      · subst hc0
        have h1 := (hInv.doneIff a ha).mp hga
        have h2 := (hInv.doneIff b hb).mp hgb
        exact absurd (h1.1.trans h2.1.symm) (Nat.ne_of_lt hab)
      · have hc1 : 1 ≤ c := Nat.one_le_iff_ne_zero.mpr hc0
        exact absurd (hInv.mono a b hab c c hga hgb hc1 hc1) (lt_irrefl c)
    rcases Nat.lt_or_ge i j with hlt | hge
    · exact key i j hlt hgi hgj hi hj
    · have hlt : j < i := Nat.lt_of_le_of_ne hge (fun h => hij h.symm)
      exact key j i hlt hgj hgi hj hi
  · intro hmiss c hgetc
    rw [hres_assigns] at hgetc
    have hsplit : invList.dropLast ++ [invList.getLast hne] = invList :=
      List.dropLast_append_getLast hne
    have hdl : invList.dropLast.length = invList.length - 1 :=
      List.length_dropLast invList
    set stM := invList.dropLast.foldl (gdStep env invList.length) st0 with hstM
    have hfold : stF = gdStep env invList.length stM (invList.getLast hne) := by
      have h1 : invList.foldl (gdStep env invList.length) st0 =
          (invList.dropLast ++ [invList.getLast hne]).foldl
            (gdStep env invList.length) st0 := by rw [hsplit]
      rw [hstF, h1, List.foldl_append, hstM]
      rfl
    have hInvM : GDLoopInv env invList.length invList.dropLast stM := by
      have h0 := gdLoopInv_nil env invList.length st0 hst0i hst0f hst0n hst0a
        hst0c
      have h := gdLoop_inv env invList.length invList.dropLast [] st0 h0
      rw [← hstM] at h
      simpa using h
    have hidxM : stM.idx = invList.length - 1 := by
      rw [hInvM.idx, hdl]
    have halenM : stM.assigns.length = invList.length - 1 := by
      rw [hInvM.alen, hdl]
    have hassF : stF.assigns = stM.assigns ++
        [assignOf invList.length stM.idx stM.notFound stM.nextChan] := by
      rw [hfold]
      exact gdStep_assigns env invList.length stM (invList.getLast hne)
    have hglast : stF.assigns[invList.length - 1]? =
        some (assignOf invList.length stM.idx stM.notFound stM.nextChan) := by
      rw [hassF, ← halenM]
      exact List.getElem?_concat_length _ _
    have hcassign : assignOf invList.length stM.idx stM.notFound stM.nextChan
        = some c := by
      rw [hglast] at hgetc
      exact Option.some.inj hgetc
    have hrecv : GDEvent.chanRecv c ∈ stF.events := by
      rw [hfold]
      exact gdStep_lastMiss_recv env invList.length stM (invList.getLast hne) c
        hmiss hidxM hcassign
    have hnfne : stF.notFound ≠ [] := by
      rw [hInv.notFound]
      intro hcon
      have hmem : invList.getLast hne ∈ invList.filter (isMiss env) :=
        List.mem_filter.mpr ⟨List.getLast_mem hne, hmiss⟩
      rw [hcon] at hmem
      simp at hmem
    have hknlast : isKnownType (invList.getLast hne) = true := by
      cases hty : (invList.getLast hne).invType
      · simp [isKnownType, hty]
      · simp [isKnownType, hty]
      · rw [isMiss, hty] at hmiss
        simp at hmiss
    have hnumpos : 0 < stF.numAdded := by
      rw [hInv.numAdded]
      have hmem : invList.getLast hne ∈ invList.filter isKnownType :=
        List.mem_filter.mpr ⟨List.getLast_mem hne, hknlast⟩
      exact List.length_pos.mpr (List.ne_nil_of_mem hmem)
    refine ⟨stF.events, [GDEvent.chanRecv 0], ?_, hrecv⟩
    rw [hres_events, hres_notFound, if_neg hnfne, if_pos hnumpos]
    simp
  · intro hnfne
    rw [hres_notFound] at hnfne ⊢
    by_cases hpos : 0 < stF.numAdded
    · refine ⟨stF.events, [GDEvent.chanRecv 0], ?_, ?_⟩
      · rw [hres_events, if_neg hnfne, if_pos hpos]
        simp
      · intro ev hev p dc
        simp at hev
        subst hev
        simp
    · refine ⟨stF.events, [], ?_, ?_⟩
      · rw [hres_events, if_neg hnfne, if_neg hpos]
        simp
      · intro ev hev p dc
        simp at hev
  · constructor
    · rw [hres_numAdded, hInv.numAdded]
    · intro hpos
      rw [hres_numAdded] at hpos
      refine ⟨stF.events ++
        (if stF.notFound = [] then []
          else [GDEvent.queueMsg (GDPayload.notFoundMsg stF.notFound)
            (some 0)]), ?_⟩
      rw [hres_events, if_pos hpos]

/-- C2 witness: a concrete one-item request on an all-hit environment,
instantiating the channel-table theorem. -/
theorem c2_witness :
    ([{ invType := GDInvType.tx, hash := 5 : GDInv }] ≠ []) ∧
    (onGetData c2WitEnv none
      [{ invType := GDInvType.tx, hash := 5 }]).assigns.length = 1 := by
  constructor
  · decide
  · have h := c2_getdata_channels c2WitEnv none
      [{ invType := GDInvType.tx, hash := 5 }] (by decide)
    simpa using h.1

end Dcrd
